import Mathlib

/-!
Shallow embedding of the auora state-management library (src/store.js,
src/pubsub.js and the deep-value helpers in src/utils.js), together with
proofs about the store transaction engine: the state/stage/backup triad,
the status stack, commit/dispatch/flush/rollback/reset, subscription
validation, getter memoisation and the structural deepEqual utility.

JavaScript data values are modelled by the inductive type JSVal
(undefined, booleans, numbers, strings, arrays, plain objects); objects
are association lists from string keys to values.  JavaScript numbers are
modelled as integers (no claim involves non-integral arithmetic).
-/

namespace Auora

/-- A JavaScript data value as handled by the library: undefined, a
boolean, a number, a string, an array, or a plain object (an ordered
association list of string keys to values, as JS objects enumerate). -/
inductive JSVal where
  | vundef : JSVal
  | vbool : Bool → JSVal
  | vnum : Int → JSVal
  | vstr : String → JSVal
  | varr : List JSVal → JSVal
  | vobj : List (String × JSVal) → JSVal
  deriving Repr

open JSVal

/-- A JavaScript object: field list in insertion order. -/
abbrev Obj := List (String × JSVal)

/-- The result of the JavaScript typeof operator on a JSVal.  Arrays and
plain objects both report "object". -/
def jsTypeof : JSVal → String
  | vundef => "undefined"
  | vbool _ => "boolean"
  | vnum _ => "number"
  | vstr _ => "string"
  | varr _ => "object"
  | vobj _ => "object"

/-- utils.isArray: Array.isArray. -/
def isArray : JSVal → Bool
  | varr _ => true
  | _ => false

/-- utils.isObject: typeof obj is object, not null and not an array.
(The model has no null value; no claim involves null.) -/
def isObject : JSVal → Bool
  | vobj _ => true
  | _ => false

mutual

/-- utils.clone: recursive copy of arrays and plain objects (the map
over elements and fields is spelled out as the recursions cloneList and
cloneFields), all other values returned as-is.  In the pure model a copy
is the value itself; the definition mirrors the source and clone_eq
records the collapse. -/
def clone : JSVal → JSVal
  | varr xs => varr (cloneList xs)
  | vobj fs => vobj (cloneFields fs)
  | vundef => vundef
  | vbool b => vbool b
  | vnum n => vnum n
  | vstr s => vstr s

/-- The element loop of clone on an array. -/
def cloneList : List JSVal → List JSVal
  | [] => []
  | x :: xs => clone x :: cloneList xs

/-- The field loop of clone on an object. -/
def cloneFields : List (String × JSVal) → List (String × JSVal)
  | [] => []
  | kv :: fs => (kv.1, clone kv.2) :: cloneFields fs

end

/-- Cloning an object field-by-field (clone applied to an object value,
unpacked to the field list). -/
def cloneObj (o : Obj) : Obj := o.map fun kv => (kv.1, clone kv.2)

/-- Object.keys: field names of an object, index strings of an array. -/
def jsKeys : JSVal → List String
  | vobj fs => fs.map Prod.fst
  | varr xs => (List.range xs.length).map (fun i => toString i)
  | _ => []

/-- Association-list lookup (first binding wins, as JS objects have
unique keys). -/
def aGet {α : Type} (fs : List (String × α)) (k : String) : Option α :=
  match fs with
  | [] => none
  | kv :: rest => if kv.1 = k then some kv.2 else aGet rest k

/-- Lookup with a default for the absent case. -/
def aGetD {α : Type} (fs : List (String × α)) (k : String) (d : α) : α :=
  (aGet fs k).getD d

/-- Key list of an association list, in insertion order. -/
def aKeys {α : Type} (fs : List (String × α)) : List String := fs.map Prod.fst

/-- The JavaScript `k in obj` test. -/
def aHasKey {α : Type} (fs : List (String × α)) (k : String) : Bool :=
  fs.any (fun kv => kv.1 = k)

/-- Property assignment obj[k] = v: an existing binding keeps its
position and is updated in place, a new key is appended at the end
(JS object insertion order). -/
def aSet {α : Type} (fs : List (String × α)) (k : String) (v : α) : List (String × α) :=
  if fs.any (fun kv => kv.1 = k) then fs.map (fun kv => if kv.1 = k then (k, v) else kv)
  else fs ++ [(k, v)]

/-- Object.assign(base, upd): each binding of upd assigned into base in
order. -/
def aAssign {α : Type} (base upd : List (String × α)) : List (String × α) :=
  upd.foldl (fun acc kv => aSet acc kv.1 kv.2) base

/-- Property read target[k]; an absent property reads as undefined.
Array elements are addressed by canonical numeric strings. -/
def jsIndex : JSVal → String → JSVal
  | vobj fs, k => (aGet fs k).getD vundef
  | varr xs, k =>
      match k.toNat? with
      | some i => if toString i = k then xs.getD i vundef else vundef
      | none => vundef
  | _, _ => vundef

/-- Array.prototype.sort on string keys: the sorted permutation of the
list under the lexicographic string order (insertion sort is one
implementation of it). -/
def sortStr (ks : List String) : List String :=
  List.insertionSort (· ≤ ·) ks

/-- Strict equality target === other between two values of the same
typeof that are neither arrays nor plain objects. -/
def jsStrictEq : JSVal → JSVal → Bool
  | vundef, vundef => true
  | vbool a, vbool b => a == b
  | vnum a, vnum b => a == b
  | vstr a, vstr b => a == b
  | _, _ => false

mutual

/-- utils.deepEqual: type-checked structural equality.  Different typeof
results are unequal; arrays compare by length and then elementwise (the
index loop is the recursion deepEqualList; an array never deep-equals a
non-array: reading .length of a same-typeof non-array yields a value
loosely unequal to the length for every object of the spec data model
without an array-like numeric length field, which is not modelled);
plain objects compare their sorted key lists (the source compares the
two sorted key arrays with a recursive deepEqual call, which on string
arrays is ordered list equality) and then each field of the target
against the same-named property of the other (the key loop is the
recursion deepEqualFields); all remaining values compare by strict
equality. -/
def deepEqual (t o : JSVal) : Bool :=
  if jsTypeof t ≠ jsTypeof o then false
  else
    match t with
    | varr xs =>
        match o with
        | varr ys => xs.length == ys.length && deepEqualList xs ys
        | _ => false
    | vobj fs =>
        sortStr (fs.map Prod.fst) == sortStr (jsKeys o) && deepEqualFields fs o
    | t => jsStrictEq t o

/-- The element loop of deepEqual over array indices: target[i] against
other[i], where reading past the other's end yields undefined. -/
def deepEqualList : List JSVal → List JSVal → Bool
  | [], _ => true
  | x :: xs, ys => deepEqual x (ys.headD vundef) && deepEqualList xs ys.tail

/-- The key loop of deepEqual over the target's fields: each value
against the same-named property of the other. -/
def deepEqualFields : List (String × JSVal) → JSVal → Bool
  | [], _ => true
  | kv :: fs, o => deepEqual kv.2 (jsIndex o kv.1) && deepEqualFields fs o

end

/-! ## The store engine (src/store.js) -/

/-- The operation status tags (the `status` constant object, in
Object.values order). -/
inductive St where
  | idle | reset | rollback | commit | mutate | dispatch
  deriving DecidableEq, Repr

/-- A published notification, as delivered through the PubSub bus.
Mutate and dispatch notifications carry the mutation and action name
(further payload arguments are not inspected by any property). -/
inductive Event where
  | idle | reset | rollback | commit
  | mutate (name : String)
  | dispatch (name : String)
  deriving DecidableEq, Repr

/-- StatusManager.push: append a status on top of the stack.  The stack
is kept top-first, so the JS array's element 0 (the base) is the last
element here. -/
def smPush (stk : List St) (t : St) : List St := t :: stk

/-- StatusManager.pop: remove the top status only when more than one
entry is present, and report whether the callback fired, which happens
exactly when the stack returns to length 1. -/
def smPopRaw (stk : List St) : List St × Bool :=
  if 1 < stk.length then (stk.tail, stk.tail.length == 1)
  else (stk, false)

/-- StatusManager.previous: the second status from the top, or idle when
fewer than two entries are present. -/
def smPrevious (stk : List St) : St :=
  match stk with
  | _ :: p :: _ => p
  | _ => St.idle

/-- A mutation: runs against the stage (with the commit payload) and
returns the updated stage together with a thrown error, if any; the
partial writes persist even when it throws, as in JS where the function
mutates the stage in place before raising. -/
abbrev Mut := Obj → List JSVal → Obj × Option JSVal

/-- A getter: a pure function of the committed state. -/
abbrev Getter := Obj → JSVal

/-- One step of an action body, acting through the dispatch context:
a write through the live stage reference (ctx.state[key] = value), a
ctx.commit call, a ctx.dispatch call, a nested invocation through the
apply proxy (ctx.apply.name(...)), or a thrown error.  An action is a
function from its payload to such a step list.  The context literal
dispatch builds passes state as a live reference to the stage and
apply as the store's apply proxy, whose handler closes over the store,
so an apply call really runs Store.dispatch; commit and dispatch, by
contrast, are unbound method references (commit: self.commit,
dispatch: self.dispatch), so calling them runs the method with `this`
being the context literal — see runSteps.  ctx.flush and ctx.get are
not needed by any property and are omitted. -/
inductive Act where
  | setStage (key : String) (val : Obj → JSVal)
  | commitA (name : String) (payload : List JSVal)
  | dispatchA (name : String) (payload : List JSVal)
  | applyA (name : String) (payload : List JSVal)
  | throwA (err : JSVal)

/-- The store: committed state, working stage, construction-time backup,
the keys detected as nested objects, registered constructs, the getter
memo cache, the status stack, the ordered log of published
notifications, and the names registered through subscribe. -/
@[ext]
structure Store where
  recurse : Bool
  state : Obj
  stage : Obj
  backup : Obj
  nested : List String
  mutations : List (String × Mut)
  actions : List (String × (List JSVal → List Act))
  getters : List (String × Getter)
  cache : Obj
  stack : List St
  log : List Event
  subs : List String

/-- events.publish: append a notification to the log.  Subscriber
callbacks themselves are outside the model; no property registers one. -/
def publish (s : Store) (e : Event) : Store := { s with log := s.log ++ [e] }

/-- status.push on the store. -/
def pushStatus (s : Store) (t : St) : Store := { s with stack := smPush s.stack t }

/-- status.pop on the store; when the stack returns to its base the
StatusManager callback publishes the idle notification. -/
def popStatus (s : Store) : Store :=
  let r := smPopRaw s.stack
  let s' := { s with stack := r.1 }
  if r.2 then publish s' Event.idle else s'

/-- The object spread { ...v }: a shallow copy.  On values a copy is the
value itself for plain objects; spreading an array yields an object of
its index keys, spreading a primitive yields an empty object. -/
def spreadObj : JSVal → JSVal
  | vobj fs => vobj fs
  | varr xs => vobj (xs.enum.map fun p => (toString p.1, p.2))
  | _ => vobj []

/-- The nested-mode reconciliation of Store.flush: cascade updates (each
stage key assigned into state, nested keys through a shallow copy), then
cascade deletes (every state key absent from stage removed). -/
def flushMerge (nested : List String) (stage state : Obj) : Obj :=
  let st1 := (stage.map Prod.fst).foldl
    (fun acc k =>
      if k ∈ nested then aSet acc k (spreadObj (aGetD stage k vundef))
      else aSet acc k (aGetD stage k vundef)) state
  st1.filter (fun kv => aHasKey stage kv.1)

/-- The state produced by Store.flush from the given stage and state:
a deep clone of stage in recurse mode, the spread { ...stage } when no
top-level key is nested, and the cascade merge otherwise. -/
def flushState (recurse : Bool) (nested : List String) (stage state : Obj) : Obj :=
  if recurse then cloneObj stage
  else if nested.isEmpty then stage
  else flushMerge nested stage state

/-- Store.flush: push the commit status (when publishing), reconcile
stage into state, clear the getter cache, then publish the commit
notification and pop the status stack (when publishing). -/
def flush (pub : Bool) (s : Store) : Store :=
  let s1 := if pub then pushStatus s St.commit else s
  let s2 := { s1 with
    state := flushState s1.recurse s1.nested s1.stage s1.state,
    cache := [] }
  if pub then popStatus (publish s2 Event.commit) else s2

/-- Store.rollback: overwrite stage with a clone of the current state,
publishing a rollback notification when requested. -/
def rollback (pub : Bool) (s : Store) : Store :=
  let s1 := if pub then pushStatus s St.rollback else s
  let s2 := { s1 with stage := cloneObj s1.state }
  if pub then popStatus (publish s2 Event.rollback) else s2

/-- Store.reset: restore state and stage from backup, either one named
field or everything, then publish a reset notification and pop. -/
def reset (s : Store) (key : Option String) : Store :=
  let s1 := pushStatus s St.reset
  let s2 := match key with
    | none => { s1 with state := cloneObj s1.backup, stage := cloneObj s1.backup }
    | some k => { s1 with
        state := aSet s1.state k (clone (aGetD s1.backup k vundef)),
        stage := aSet s1.stage k (clone (aGetD s1.backup k vundef)) }
  popStatus (publish s2 Event.reset)

/-- Object.values(status): the valid global subscription names. -/
def statusValues : List String := ["idle", "reset", "rollback", "commit", "mutate", "dispatch"]

/-- The error message raised for an unrecognized subscription name. -/
def subscribeMsg (name : String) : String :=
  "Cannot subscribe to `" ++ name ++ "`. Valid choices are: " ++
    String.intercalate ", " statusValues

/-- Store.subscribe: validate the name against the global event tags,
then record the subscription; an unrecognized name raises the error
(second component) and leaves the store untouched.  The source wraps the
callback to flush without publishing after it runs; callback execution
is outside the model since no property registers a firing subscriber. -/
def subscribe (s : Store) (name : String) : Store × Option String :=
  if name ∈ statusValues then ({ s with subs := s.subs ++ [name] }, none)
  else (s, some (subscribeMsg name))

/-- The error message raised by commit for an unknown mutation. -/
def missingMutationMsg (name : String) : String :=
  "Mutation `" ++ name ++ "` does not exist."

/-- The error message raised by dispatch for an unknown action. -/
def missingActionMsg (name : String) : String :=
  "Action `" ++ name ++ "` does not exist."

/-- Store.commit: look up the mutation (raising the missing-construct
error before anything else), push the mutate status, run the mutation
against the stage, then on success flush (publishing a commit
notification), publish the mutate notification and pop; on a thrown
mutation the error propagates after only the status pop — the partially
written stage stays as the mutation left it. -/
def commit (s : Store) (name : String) (payload : List JSVal) : Store × Except JSVal Unit :=
  match aGet s.mutations name with
  | none => (s, Except.error (vstr (missingMutationMsg name)))
  | some m =>
    let s1 := pushStatus s St.mutate
    let r := m s1.stage payload
    let s2 := { s1 with stage := r.1 }
    match r.2 with
    | some e => (popStatus s2, Except.error e)
    | none =>
      let s3 := publish (flush true s2) (Event.mutate name)
      (popStatus s3, Except.ok ())

/-- Store.dispatch with the interpretation of the action body supplied
as an argument: look up the action (raising the missing-construct error
first), push the dispatch status, run the body; on success flush and
publish the dispatch notification only when this is the outermost
operation (previous status is idle), then pop; on failure roll the stage
back (publishing rollback), pop, and propagate the error verbatim. -/
def dispatchWith (runA : Store → List Act → Option (Store × Except JSVal Unit))
    (s : Store) (name : String) (payload : List JSVal) :
    Option (Store × Except JSVal Unit) :=
  match aGet s.actions name with
  | none => some (s, Except.error (vstr (missingActionMsg name)))
  | some body =>
    let s1 := pushStatus s St.dispatch
    match runA s1 (body payload) with
    | none => none
    | some (s2, Except.error e) => some (popStatus (rollback true s2), Except.error e)
    | some (s2, Except.ok _) =>
        let s3 := if smPrevious s2.stack = St.idle
          then publish (flush true s2) (Event.dispatch name) else s2
        some (popStatus s3, Except.ok ())

/-- What calling the context's commit throws.  The context passes
commit: self.commit, an unbound method reference, so ctx.commit(...)
runs Store.commit with `this` being the context literal: its mutations
field is undefined and the existence check typeof self.mutations[name]
dies with a TypeError before any status push, mutation, flush or
publication — the store is untouched. -/
def ctxCommitError : JSVal := vstr "TypeError: self.mutations is undefined"

/-- What calling the context's dispatch throws.  dispatch: self.dispatch
is likewise unbound, so inside the call self.actions is undefined and
typeof self.actions[name] dies with a TypeError; dispatch being async,
the TypeError arrives as a rejection of the returned promise, which an
action awaiting the call receives.  No nested action runs and the store
is untouched. -/
def ctxDispatchError : JSVal := vstr "TypeError: self.actions is undefined"

/-- Run the steps of an action body in order: stage writes go through
the live stage reference; ctx.commit and ctx.dispatch are unbound
references, so both fail with a TypeError without touching the store
(the body observes it thrown, for dispatch by awaiting the rejected
promise); a nested invocation through the apply proxy runs the
supplied dispatch (the proxy handler closes over the store) and
propagates its failure as observed by an action awaiting it; a throw
aborts the body. -/
def runSteps (disp : Store → String → List JSVal → Option (Store × Except JSVal Unit)) :
    Store → List Act → Option (Store × Except JSVal Unit)
  | s, [] => some (s, Except.ok ())
  | s, Act.setStage k f :: rest =>
      runSteps disp { s with stage := aSet s.stage k (f s.stage) } rest
  | s, Act.throwA e :: _ => some (s, Except.error e)
  | s, Act.commitA _ _ :: _ => some (s, Except.error ctxCommitError)
  | s, Act.dispatchA _ _ :: _ => some (s, Except.error ctxDispatchError)
  | s, Act.applyA n p :: rest =>
      match disp s n p with
      | none => none
      | some (s', Except.error e) => some (s', Except.error e)
      | some (s', Except.ok _) => runSteps disp s' rest

/-- The exhausted-fuel dispatch: nested dispatch beyond the fuel bound
yields no result at all (the fuel only bounds nesting depth; every
property quantifies over or instantiates sufficient fuel). -/
def noDispatch : Store → String → List JSVal → Option (Store × Except JSVal Unit) :=
  fun _ _ _ => none

/-- Interpret an action body with nesting depth bounded by fuel. -/
def runActs : Nat → Store → List Act → Option (Store × Except JSVal Unit)
  | 0 => runSteps noDispatch
  | fuel + 1 => runSteps (fun s n p => dispatchWith (runActs fuel) s n p)

/-- Store.dispatch: the action body runs with nesting bounded by fuel. -/
def dispatch (fuel : Nat) (s : Store) (name : String) (payload : List JSVal) :
    Option (Store × Except JSVal Unit) :=
  dispatchWith (runActs fuel) s name payload

/-- Reading store.get.name through the getters proxy: undefined for an
unknown getter, the memoised value when cached, otherwise the getter
runs against state and the result is cached.  (The source skips caching
for results that are functions; JSVal contains no function values, so
every computed result is cached.) -/
def getRead (s : Store) (name : String) : Option JSVal × Store :=
  match aGet s.getters name with
  | none => (none, s)
  | some g =>
    match aGet s.cache name with
    | some v => (some v, s)
    | none =>
      let r := g s.state
      (some r, { s with cache := aSet s.cache name r })

/-- Construction parameters: initial state, mutations, actions, getters
and the recurse option (default false, as in the source's default
options object). -/
structure Params where
  state : Obj := []
  mutations : List (String × Mut) := []
  actions : List (String × (List JSVal → List Act)) := []
  getters : List (String × Getter) := []
  recurse : Bool := false

/-- Store.register: merge cloned new state into state and stage, merge
getters, actions and mutations, and re-detect which top-level state keys
hold nested objects.  No default setter mutation is synthesized here. -/
def register (s : Store) (p : Params) : Store :=
  let st := aAssign s.state (cloneObj p.state)
  { s with
    state := st,
    stage := aAssign s.stage (cloneObj p.state),
    getters := aAssign s.getters p.getters,
    actions := aAssign s.actions p.actions,
    mutations := aAssign s.mutations p.mutations,
    nested := (st.map Prod.fst).filter (fun k => isObject (aGetD st k vundef)) }

/-- The default setter mutation synthesized for an initial state field:
state[key] = value. -/
def defaultMutation (key : String) : Mut :=
  fun st payload => (aSet st key (payload.headD vundef), none)

/-- The store before construction fills it: empty constructs, the status
stack at its idle base, nothing published. -/
def emptyStore (recurse : Bool) : Store :=
  { recurse := recurse, state := [], stage := [], backup := [], nested := [],
    mutations := [], actions := [], getters := [], cache := [],
    stack := [St.idle], log := [], subs := [] }

/-- The Store constructor: register the supplied constructs, synthesize
a default setter mutation for every initial state field with the
supplied mutations taking precedence (the source assigns defaults then
re-assigns params.mutations over them), and snapshot the initial state
as the backup.  The params.events wiring goes through subscribe; no
property constructs a store with events. -/
def mkStore (p : Params) : Store :=
  let s1 := register (emptyStore p.recurse) p
  { s1 with
    mutations := aAssign
      ((p.state.map Prod.fst).foldl (fun acc k => aSet acc k (defaultMutation k)) s1.mutations)
      p.mutations,
    backup := cloneObj p.state }

/-! ## Auxiliary notions used by the statements -/

mutual

/-- Well-formed JavaScript data: every object that occurs has distinct
keys (as every object produced by a JS program does). -/
def WFVal : JSVal → Prop
  | varr xs => WFList xs
  | vobj fs => (fs.map Prod.fst).Nodup ∧ WFFields fs
  | _ => True

/-- Well-formedness of every array element. -/
def WFList : List JSVal → Prop
  | [] => True
  | x :: xs => WFVal x ∧ WFList xs

/-- Well-formedness of every field value. -/
def WFFields : List (String × JSVal) → Prop
  | [] => True
  | kv :: fs => WFVal kv.2 ∧ WFFields fs

end

/-- An operation on the StatusManager stack: push a tag or pop. -/
inductive SMOp where
  | push (t : St)
  | pop

/-- One StatusManager operation applied to a stack, reporting whether
the idle callback fired. -/
def smStep (stk : List St) : SMOp → List St × Bool
  | SMOp.push t => (smPush stk t, false)
  | SMOp.pop => smPopRaw stk

/-- A sequence of push/pop operations run from the initial stack
holding only the idle tag. -/
def smRun (ops : List SMOp) : List St :=
  ops.foldl (fun stk op => (smStep stk op).1) [St.idle]

/-- Whether a dispatch result is a success. -/
def exOk : Except JSVal Unit → Bool
  | Except.ok _ => true
  | Except.error _ => false

/-! ## Concrete stores used by the witnesses and counterexamples -/

/-- A store over the initial state of the reset-scoping scenario. -/
def storeAB : Store := mkStore { state := [("a", vnum 1), ("b", vnum 2)] }

/-- The reset-scoping trace: commit a := 99, commit b := 88. -/
def abCommitA : Store := (commit storeAB "a" [vnum 99]).1

/-- Second step of the reset-scoping trace. -/
def abCommitB : Store := (commit abCommitA "b" [vnum 88]).1

/-- Final step of the reset-scoping trace: reset only field a. -/
def abReset : Store := reset abCommitB (some "a")

/-- The getter doubled = state => state.counter * 2. -/
def doubledGetter : Getter := fun st =>
  match aGetD st "counter" vundef with
  | vnum n => vnum (2 * n)
  | _ => vundef

/-- A store with counter state and the doubled getter. -/
def counterStore : Store :=
  mkStore { state := [("counter", vnum 0)], getters := [("doubled", doubledGetter)] }

/-- Reading doubled once memoises its value. -/
def counterRead0 : Option JSVal × Store := getRead counterStore "doubled"

/-- Committing counter := 5 after the first read. -/
def counterC5 : Store := (commit counterRead0.2 "counter" [vnum 5]).1

/-- Reading doubled again after the commit. -/
def counterRead1 : Option JSVal × Store := getRead counterC5 "doubled"

/-- Resetting the store after the second read. -/
def counterReset : Store := reset counterRead1.2 none

/-- An action writing y := 7 through the stage reference. -/
def innerBody : List JSVal → List Act := fun _ =>
  [Act.setStage "y" (fun _ => vnum 7)]

/-- An action writing x := 3 and then invoking inner through the apply
proxy. -/
def outerBody : List JSVal → List Act := fun _ =>
  [Act.setStage "x" (fun _ => vnum 3), Act.applyA "inner" []]

/-- A store with the nested actions inner and outer. -/
def nestStore : Store :=
  mkStore
    { state := [("x", vnum 0), ("y", vnum 0)],
      actions := [("inner", innerBody), ("outer", outerBody)] }

/-- An action staging x := 9 and then throwing the error err. -/
def failBody : List JSVal → List Act := fun _ =>
  [Act.setStage "x" (fun _ => vnum 9), Act.throwA (vstr "err")]

/-- A store with the staging-then-throwing action. -/
def failStore : Store :=
  mkStore { state := [("x", vnum 0)], actions := [("fail", failBody)] }

/-- A mutation writing x := 9 into the stage and then throwing. -/
def badMutation : Mut := fun st _ => (aSet st "x" (vnum 9), some (vstr "mboom"))

/-- A store with the throwing mutation. -/
def badMutStore : Store :=
  mkStore { state := [("x", vnum 0)], mutations := [("badMut", badMutation)] }

/-- A store that registers a fresh state field f after construction. -/
def regStore : Store :=
  register (mkStore { state := [("a", vnum 1)] }) { state := [("f", vnum 4)] }

/-! ## Value-level lemmas -/

theorem cloneList_eq_of (xs : List JSVal) (h : ∀ x ∈ xs, clone x = x) :
    cloneList xs = xs := by
  induction xs with
  | nil => rfl
  | cons x xs ih =>
    rw [cloneList, h x (List.mem_cons_self x xs),
      ih fun y hy => h y (List.mem_cons_of_mem x hy)]

theorem cloneFields_eq_of (fs : List (String × JSVal)) (h : ∀ kv ∈ fs, clone kv.2 = kv.2) :
    cloneFields fs = fs := by
  induction fs with
  | nil => rfl
  | cons kv fs ih =>
    rw [cloneFields, h kv (List.mem_cons_self kv fs),
      ih fun y hy => h y (List.mem_cons_of_mem kv hy)]

/-- In the pure model a clone is the value itself (cloning exists in the
source only to break reference sharing). -/
theorem clone_eq (v : JSVal) : clone v = v := by
  have H : ∀ n, ∀ v : JSVal, sizeOf v ≤ n → clone v = v := by
    intro n
    induction n using Nat.strong_induction_on with
    | _ n ih =>
      intro v hv
      cases v with
      | varr xs =>
        rw [clone]
        rw [cloneList_eq_of xs fun x hx => ?_]
        have hsz := List.sizeOf_lt_of_mem hx
        have hlt : sizeOf x < n := by
          simp only [varr.sizeOf_spec] at hv
          omega
        exact ih _ hlt x le_rfl
      | vobj fs =>
        rw [clone]
        rw [cloneFields_eq_of fs fun kv hkv => ?_]
        have hsz := List.sizeOf_lt_of_mem hkv
        have h2 : sizeOf kv.2 < sizeOf kv := by
          obtain ⟨k, w⟩ := kv
          simp
        have hlt : sizeOf kv.2 < n := by
          simp only [vobj.sizeOf_spec] at hv
          omega
        exact ih _ hlt kv.2 le_rfl
      | vundef => rw [clone]
      | vbool b => rw [clone]
      | vnum m => rw [clone]
      | vstr t => rw [clone]
  exact H (sizeOf v) v le_rfl


/-- Cloning an object is the object itself in the pure model. -/
theorem cloneObj_eq (o : Obj) : cloneObj o = o := by
  have h : ∀ kv ∈ o, (kv.1, clone kv.2) = id kv := by
    intro kv _
    rw [clone_eq]
    rfl
  rw [cloneObj, List.map_congr_left h, List.map_id]

/-! ## Association-list lemmas -/

theorem aGet_append {α : Type} (fs gs : List (String × α)) (k : String) :
    aGet (fs ++ gs) k = match aGet fs k with
      | some v => some v
      | none => aGet gs k := by
  induction fs with
  | nil => simp [aGet]
  | cons kv rest ih =>
    by_cases h : kv.1 = k <;> simp [aGet, h, ih]

theorem aGet_map_update {α : Type} (fs : List (String × α)) (k : String) (v : α)
    (h : fs.any (fun kv => kv.1 = k) = true) :
    aGet (fs.map fun kv => if kv.1 = k then (k, v) else kv) k = some v := by
  induction fs with
  | nil => simp at h
  | cons kv rest ih =>
    by_cases hkv : kv.1 = k
    · simp [aGet, hkv]
    · simp only [List.any_cons, Bool.or_eq_true, decide_eq_true_eq] at h
      rcases h with h | h
      · exact absurd h hkv
      · simp [aGet, hkv, ih h]

theorem aGet_map_update_ne {α : Type} (fs : List (String × α)) (k k' : String) (v : α)
    (h : k' ≠ k) :
    aGet (fs.map fun kv => if kv.1 = k then (k, v) else kv) k' = aGet fs k' := by
  induction fs with
  | nil => simp [aGet]
  | cons kv rest ih =>
    by_cases hkv : kv.1 = k
    · have h1 : ¬ k = k' := fun he => h he.symm
      have h2 : ¬ kv.1 = k' := by
        rw [hkv]
        exact h1
      simp [aGet, hkv, h1, h2, ih]
    · simp [aGet, hkv, ih]

theorem aGet_aSet_self {α : Type} (fs : List (String × α)) (k : String) (v : α) :
    aGet (aSet fs k v) k = some v := by
  rw [aSet]
  by_cases h : fs.any (fun kv => kv.1 = k) = true
  · rw [if_pos h]
    exact aGet_map_update fs k v h
  · rw [if_neg h, aGet_append]
    have hnone : aGet fs k = none := by
      induction fs with
      | nil => rfl
      | cons kv rest ih =>
        simp only [List.any_cons, Bool.or_eq_true, decide_eq_true_eq] at h
        push_neg at h
        simp [aGet, h.1, ih (by simpa using h.2)]
    simp [hnone, aGet]

theorem aGet_aSet_ne {α : Type} (fs : List (String × α)) (k k' : String) (v : α)
    (h : k' ≠ k) : aGet (aSet fs k v) k' = aGet fs k' := by
  rw [aSet]
  by_cases hc : fs.any (fun kv => kv.1 = k) = true
  · rw [if_pos hc]
    exact aGet_map_update_ne fs k k' v h
  · rw [if_neg hc, aGet_append]
    cases hg : aGet fs k' with
    | some w => simp
    | none => simp [aGet, hg, Ne.symm h]

theorem aKeys_map_update {α : Type} (fs : List (String × α)) (k : String) (v : α) :
    aKeys (fs.map fun kv => if kv.1 = k then (k, v) else kv) = aKeys fs := by
  induction fs with
  | nil => rfl
  | cons kv rest ih =>
    by_cases hkv : kv.1 = k <;> simp [aKeys, hkv] <;>
      simpa [aKeys] using ih

theorem not_any_key {α : Type} (fs : List (String × α)) (k : String)
    (h : ¬ fs.any (fun kv => kv.1 = k) = true) : k ∉ aKeys fs := by
  intro hmem
  simp only [aKeys, List.mem_map] at hmem
  rcases hmem with ⟨kv, hkv, hk⟩
  exact h (List.any_eq_true.mpr ⟨kv, hkv, by simpa using hk⟩)

theorem nodup_aKeys_aSet {α : Type} (fs : List (String × α)) (k : String) (v : α)
    (h : (aKeys fs).Nodup) : (aKeys (aSet fs k v)).Nodup := by
  rw [aSet]
  by_cases hc : fs.any (fun kv => kv.1 = k) = true
  · rw [if_pos hc, aKeys_map_update]
    exact h
  · rw [if_neg hc]
    have hk := not_any_key fs k hc
    simp only [aKeys, List.map_append, List.map_cons, List.map_nil]
    simp [List.nodup_append]
    exact ⟨h, by simpa [aKeys] using hk⟩

theorem map_update_of_not_mem {α : Type} (fs : List (String × α)) (k : String) (v : α)
    (h : k ∉ aKeys fs) :
    (fs.map fun kv => if kv.1 = k then (k, v) else kv) = fs := by
  have he : ∀ kv ∈ fs, (if kv.1 = k then (k, v) else kv) = id kv := by
    intro kv hkv
    have : kv.1 ≠ k := by
      intro hk
      exact h (by simpa [aKeys, hk] using List.mem_map_of_mem Prod.fst hkv)
    simp [this]
  rw [List.map_congr_left he, List.map_id]

theorem aSet_noop {α : Type} (fs : List (String × α)) (k : String) (v : α)
    (hnd : (aKeys fs).Nodup) (hget : aGet fs k = some v) : aSet fs k v = fs := by
  rw [aSet]
  have hany : fs.any (fun kv => kv.1 = k) = true := by
    induction fs with
    | nil => simp [aGet] at hget
    | cons kv rest ih =>
      by_cases hkv : kv.1 = k
      · simp [hkv]
      · simp only [aGet, hkv, if_false] at hget
        simp [hkv, ih (by simpa [aKeys] using hnd.of_cons) hget]
  rw [if_pos hany]
  induction fs with
  | nil => rfl
  | cons kv rest ih =>
    by_cases hkv : kv.1 = k
    · simp only [aGet, hkv, if_true] at hget
      have hrest : k ∉ aKeys rest := by
        simp only [aKeys, List.map_cons] at hnd
        rw [← hkv]
        exact (List.nodup_cons.mp hnd).1
      simp only [List.map_cons, hkv, if_true]
      rw [map_update_of_not_mem rest k v hrest]
      injection hget with hv
      rw [← hkv, ← hv]
    · simp only [aGet, hkv, if_false] at hget
      have hnd' : (aKeys rest).Nodup := by
        simp only [aKeys, List.map_cons] at hnd
        exact hnd.of_cons
      have hany' : rest.any (fun kv => kv.1 = k) = true := by
        rcases List.any_eq_true.mp hany with ⟨kv', hkv', hk'⟩
        have hk2 : kv'.1 = k := of_decide_eq_true hk'
        rcases List.mem_cons.mp hkv' with he | he
        · exact absurd (he ▸ hk2) hkv
        · exact List.any_eq_true.mpr ⟨kv', he, hk'⟩
      simp only [List.map_cons, hkv, if_false]
      rw [ih hnd' hget hany']

theorem aGet_eq_of_mem_nodup {α : Type} (fs : List (String × α)) (kv : String × α)
    (hnd : (aKeys fs).Nodup) (hm : kv ∈ fs) : aGet fs kv.1 = some kv.2 := by
  induction fs with
  | nil => simp at hm
  | cons hd rest ih =>
    rcases List.mem_cons.mp hm with he | he
    · subst he
      simp [aGet]
    · have hhd : hd.1 ≠ kv.1 := by
        intro hk
        have : kv.1 ∈ aKeys rest := by
          simpa [aKeys] using List.mem_map_of_mem Prod.fst he
        simp only [aKeys, List.map_cons] at hnd
        exact (List.nodup_cons.mp hnd).1 (hk ▸ this)
      have hnd' : (aKeys rest).Nodup := by
        simp only [aKeys, List.map_cons] at hnd
        exact hnd.of_cons
      simp [aGet, hhd, ih hnd' he]

theorem aGet_foldl_aSet_not_mem {α : Type} (f : String → α) (ks : List String)
    (acc : List (String × α)) (k : String) (h : k ∉ ks) :
    aGet (ks.foldl (fun a k' => aSet a k' (f k')) acc) k = aGet acc k := by
  induction ks generalizing acc with
  | nil => rfl
  | cons k0 ks ih =>
    simp only [List.mem_cons, not_or] at h
    rw [List.foldl_cons, ih _ h.2, aGet_aSet_ne _ _ _ _ h.1]

theorem aGet_foldl_aSet {α : Type} (f : String → α) (ks : List String)
    (acc : List (String × α)) (k : String) (hnd : ks.Nodup) :
    aGet (ks.foldl (fun a k' => aSet a k' (f k')) acc) k =
      if k ∈ ks then some (f k) else aGet acc k := by
  induction ks generalizing acc with
  | nil => simp [aGet]
  | cons k0 ks ih =>
    rw [List.foldl_cons]
    by_cases hk : k = k0
    · subst hk
      have hnot : k ∉ ks := (List.nodup_cons.mp hnd).1
      rw [aGet_foldl_aSet_not_mem _ _ _ _ hnot, aGet_aSet_self]
      simp
    · rw [ih _ (List.nodup_cons.mp hnd).2]
      by_cases hm : k ∈ ks
      · simp [hm]
      · simp [hm, hk, aGet_aSet_ne _ _ _ _ hk]

theorem aGet_aAssign_not_mem {α : Type} (base upd : List (String × α)) (k : String)
    (h : k ∉ aKeys upd) : aGet (aAssign base upd) k = aGet base k := by
  induction upd generalizing base with
  | nil => rfl
  | cons kv rest ih =>
    simp only [aKeys, List.map_cons, List.mem_cons, not_or] at h
    rw [aAssign, List.foldl_cons]
    have := ih (aSet base kv.1 kv.2) (by simpa [aKeys] using h.2)
    rw [aAssign] at this
    rw [this, aGet_aSet_ne _ _ _ _ h.1]

theorem mem_zip_self {α : Type} (xs : List α) :
    ∀ p ∈ xs.zip xs, p.1 = p.2 ∧ p.1 ∈ xs := by
  induction xs with
  | nil => simp
  | cons x xs ih =>
    intro p hp
    rcases List.mem_cons.mp hp with he | he
    · subst he
      simp
    · rcases ih p he with ⟨h1, h2⟩
      exact ⟨h1, List.mem_cons_of_mem _ h2⟩

/-! ## StatusManager lemmas -/

theorem smPopRaw_cons (x : St) (l : List St) (hl : l ≠ []) :
    smPopRaw (x :: l) = (l, l.length == 1) := by
  rw [smPopRaw, if_pos]
  · rfl
  · simp [List.length_pos, hl]

theorem smPopRaw_short (stk : List St) (h : stk.length ≤ 1) :
    smPopRaw stk = (stk, false) := by
  rw [smPopRaw, if_neg]
  omega

theorem smPopRaw_fired (stk : List St) :
    (smPopRaw stk).2 = true ↔ stk.length = 2 := by
  rw [smPopRaw]
  by_cases h : 1 < stk.length
  · rw [if_pos h]
    cases stk with
    | nil => simp at h
    | cons x l =>
      simp only [List.tail_cons, beq_iff_eq, List.length_cons]
      omega
  · rw [if_neg h]
    simp
    omega

theorem smRun_shape (ops : List SMOp) : ∃ pre, smRun ops = pre ++ [St.idle] := by
  rw [smRun]
  suffices H : ∀ stk : List St, (∃ pre, stk = pre ++ [St.idle]) →
      ∃ pre, ops.foldl (fun stk op => (smStep stk op).1) stk = pre ++ [St.idle] from
    H _ ⟨[], rfl⟩
  induction ops with
  | nil =>
    intro stk h
    exact h
  | cons op ops ih =>
    intro stk h
    rw [List.foldl_cons]
    apply ih
    rcases h with ⟨pre, rfl⟩
    cases op with
    | push t =>
      exact ⟨t :: pre, by simp [smStep, smPush]⟩
    | pop =>
      cases pre with
      | nil =>
        refine ⟨[], ?_⟩
        simp [smStep, smPopRaw_short [St.idle] (by simp)]
      | cons x pre' =>
        refine ⟨pre', ?_⟩
        simp [smStep, smPopRaw_cons x (pre' ++ [St.idle]) (by simp)]

/-- C4: for every sequence of push and pop operations from the initial
stack holding only the idle tag, the stack's base element is always the
idle tag and the length never drops below 1 (a pop on a length-1 stack
is a no-op), and the idle callback fires on a pop exactly when the
stack's length is 2, i.e. exactly once per full unwind, not on every
pop. -/
theorem statusManager_invariants (ops : List SMOp) :
    (smRun ops).getLast? = some St.idle ∧
    1 ≤ (smRun ops).length ∧
    ((smRun ops).length = 1 → smStep (smRun ops) SMOp.pop = (smRun ops, false)) ∧
    ((smStep (smRun ops) SMOp.pop).2 = true ↔ (smRun ops).length = 2) := by
  rcases smRun_shape ops with ⟨pre, hpre⟩
  refine ⟨?_, ?_, ?_, ?_⟩
  · rw [hpre, List.getLast?_concat]
  · rw [hpre]
    simp
  · intro h1
    simp [smStep, smPopRaw_short _ (le_of_eq h1)]
  · simpa [smStep] using smPopRaw_fired (smRun ops)

/-- Witness for C4 at the operation sequence push dispatch, push
commit, pop: the base stays idle, and the next pop (from length 2)
fires the idle callback. -/
theorem statusManager_invariants_witness :
    (smRun [SMOp.push St.dispatch, SMOp.push St.commit, SMOp.pop]).getLast? = some St.idle ∧
    (smStep (smRun [SMOp.push St.dispatch, SMOp.push St.commit, SMOp.pop]) SMOp.pop).2 = true := by
  refine ⟨(statusManager_invariants _).1, ?_⟩
  exact (statusManager_invariants
    [SMOp.push St.dispatch, SMOp.push St.commit, SMOp.pop]).2.2.2.mpr (by decide)

/-- C8: subscribe succeeds exactly on the six known global event tags,
appending the subscription; any other name raises the invalid
subscription error whose message carries the list of valid choices, and
the registry is left unchanged. -/
theorem subscribe_validation (s : Store) (name : String) :
    (name ∈ statusValues →
      subscribe s name = ({ s with subs := s.subs ++ [name] }, none)) ∧
    (name ∉ statusValues →
      subscribe s name = (s, some (subscribeMsg name)) ∧
      subscribeMsg name =
        ("Cannot subscribe to `" ++ name ++ "`. Valid choices are: ") ++
          "idle, reset, rollback, commit, mutate, dispatch") ∧
    statusValues = ["idle", "reset", "rollback", "commit", "mutate", "dispatch"] := by
  refine ⟨?_, ?_, rfl⟩
  · intro h
    rw [subscribe, if_pos h]
  · intro h
    rw [subscribe, if_neg h]
    exact ⟨rfl, rfl⟩

/-- Witness for C8: subscribing to commit succeeds; subscribing to the
unknown name update fails with the error and an unchanged store. -/
theorem subscribe_validation_witness :
    subscribe storeAB "commit" = ({ storeAB with subs := storeAB.subs ++ ["commit"] }, none) ∧
    subscribe storeAB "update" = (storeAB, some (subscribeMsg "update")) := by
  refine ⟨(subscribe_validation storeAB "commit").1 (by decide), ?_⟩
  exact ((subscribe_validation storeAB "update").2.1 (by decide)).1

/-! ## Sorting and deep-equality lemmas -/

theorem sortStr_perm (ks : List String) : List.Perm (sortStr ks) ks :=
  List.perm_insertionSort _ ks

theorem sortStr_sorted (ks : List String) : List.Sorted (· ≤ ·) (sortStr ks) :=
  List.sorted_insertionSort _ ks

theorem sortStr_eq_iff_perm (ks ls : List String) :
    sortStr ks = sortStr ls ↔ List.Perm ks ls := by
  constructor
  · intro h
    refine ((sortStr_perm ks).symm.trans ?_)
    rw [h]
    exact sortStr_perm ls
  · intro h
    exact List.eq_of_perm_of_sorted
      ((sortStr_perm ks).trans (h.trans (sortStr_perm ls).symm))
      (sortStr_sorted ks) (sortStr_sorted ls)

theorem WFList_iff (xs : List JSVal) : WFList xs ↔ ∀ x ∈ xs, WFVal x := by
  induction xs with
  | nil => simp [WFList]
  | cons x xs ih => simp [WFList, ih, List.forall_mem_cons]

theorem WFFields_iff (fs : List (String × JSVal)) :
    WFFields fs ↔ ∀ kv ∈ fs, WFVal kv.2 := by
  induction fs with
  | nil => simp [WFFields]
  | cons kv fs ih => simp [WFFields, ih, List.forall_mem_cons]

theorem deepEqualFields_eq_all (fs : List (String × JSVal)) (o : JSVal) :
    deepEqualFields fs o = true ↔ ∀ kv ∈ fs, deepEqual kv.2 (jsIndex o kv.1) = true := by
  induction fs with
  | nil => simp [deepEqualFields]
  | cons kv fs ih =>
    simp [deepEqualFields, Bool.and_eq_true, ih, List.forall_mem_cons]

theorem deepEqualList_eq_all (xs ys : List JSVal) (hl : xs.length = ys.length) :
    deepEqualList xs ys = true ↔ ∀ p ∈ xs.zip ys, deepEqual p.1 p.2 = true := by
  induction xs generalizing ys with
  | nil => simp [deepEqualList]
  | cons x xs ih =>
    cases ys with
    | nil => simp at hl
    | cons y ys =>
      simp only [deepEqualList, List.headD_cons, List.tail_cons, Bool.and_eq_true,
        List.zip_cons_cons, List.forall_mem_cons]
      rw [ih ys (by simpa using hl)]

theorem deepEqualList_self (xs : List JSVal) (h : ∀ x ∈ xs, deepEqual x x = true) :
    deepEqualList xs xs = true := by
  induction xs with
  | nil => rfl
  | cons x xs ih =>
    simp only [deepEqualList, List.headD_cons, List.tail_cons, Bool.and_eq_true]
    exact ⟨h x (List.mem_cons_self x xs), ih fun y hy => h y (List.mem_cons_of_mem x hy)⟩

/-- Reflexivity of deepEqual on well-formed data (objects with
duplicate keys, which JavaScript cannot produce, are excluded). -/
theorem deepEqual_refl (v : JSVal) (hw : WFVal v) : deepEqual v v = true := by
  have H : ∀ n, ∀ v : JSVal, sizeOf v ≤ n → WFVal v → deepEqual v v = true := by
    intro n
    induction n using Nat.strong_induction_on with
    | _ n ih =>
      intro v hv hw
      cases v with
      | vundef => rfl
      | vbool b => simp [deepEqual, jsStrictEq]
      | vnum m => simp [deepEqual, jsStrictEq]
      | vstr t => simp [deepEqual, jsStrictEq]
      | varr xs =>
        have hlist : ∀ x ∈ xs, deepEqual x x = true := by
          intro x hx
          have hsz := List.sizeOf_lt_of_mem hx
          have hlt : sizeOf x < n := by
            simp only [varr.sizeOf_spec] at hv
            omega
          exact ih _ hlt x le_rfl ((WFList_iff xs).mp hw x hx)
        simp [deepEqual, jsTypeof, deepEqualList_self xs hlist]
      | vobj fs =>
        have hw' : (fs.map Prod.fst).Nodup ∧ WFFields fs := hw
        have hfields : deepEqualFields fs (vobj fs) = true := by
          rw [deepEqualFields_eq_all]
          intro kv hkv
          have hget : aGet fs kv.1 = some kv.2 := aGet_eq_of_mem_nodup fs kv hw'.1 hkv
          simp only [jsIndex, hget, Option.getD_some]
          have hsz := List.sizeOf_lt_of_mem hkv
          have h2 : sizeOf kv.2 < sizeOf kv := by
            obtain ⟨k, w⟩ := kv
            simp
          have hlt : sizeOf kv.2 < n := by
            simp only [vobj.sizeOf_spec] at hv
            omega
          exact ih _ hlt kv.2 le_rfl ((WFFields_iff fs).mp hw'.2 kv hkv)
        simp [deepEqual, jsTypeof, jsKeys, hfields]
  exact H (sizeOf v) v le_rfl hw

/-- C9: deepEqual is a type-checked structural equality.  Values of
different runtime (typeof) types are unequal; two arrays are equal iff
they have equal length and pairwise deep-equal elements in order; two
plain objects (with the distinct keys JavaScript guarantees) are equal
iff they have the same set of keys, order-independent, and each field of
the one is deep-equal to the same-named field of the other; all values
that are neither arrays nor objects compare by strict (identity/value)
equality. -/
theorem deepEqual_spec :
    (∀ a b : JSVal, jsTypeof a ≠ jsTypeof b → deepEqual a b = false) ∧
    (∀ xs ys : List JSVal, deepEqual (varr xs) (varr ys) = true ↔
      (xs.length = ys.length ∧ ∀ p ∈ xs.zip ys, deepEqual p.1 p.2 = true)) ∧
    (∀ fs gs : Obj, (aKeys fs).Nodup → (aKeys gs).Nodup →
      (deepEqual (vobj fs) (vobj gs) = true ↔
        ((∀ k, k ∈ aKeys fs ↔ k ∈ aKeys gs) ∧
         ∀ kv ∈ fs, deepEqual kv.2 (aGetD gs kv.1 vundef) = true))) ∧
    (∀ a b : JSVal, isArray a = false → isObject a = false →
      isArray b = false → isObject b = false → deepEqual a b = jsStrictEq a b) := by
  refine ⟨?_, ?_, ?_, ?_⟩
  · intro a b h
    rw [deepEqual.eq_def, if_pos h]
  · intro xs ys
    rw [deepEqual.eq_def, if_neg (by simp [jsTypeof])]
    show (xs.length == ys.length && deepEqualList xs ys) = true ↔ _
    constructor
    · intro h
      rw [Bool.and_eq_true] at h
      obtain ⟨ha, hb⟩ := h
      have hlen : xs.length = ys.length := by simpa using ha
      exact ⟨hlen, (deepEqualList_eq_all xs ys hlen).mp hb⟩
    · rintro ⟨h1, h2⟩
      rw [Bool.and_eq_true]
      exact ⟨by simpa using h1, (deepEqualList_eq_all xs ys h1).mpr h2⟩
  · intro fs gs hf hg
    rw [deepEqual.eq_def, if_neg (by simp [jsTypeof])]
    show (sortStr (fs.map Prod.fst) == sortStr (jsKeys (vobj gs)) &&
      deepEqualFields fs (vobj gs)) = true ↔ _
    simp only [Bool.and_eq_true, beq_iff_eq, jsKeys]
    rw [sortStr_eq_iff_perm]
    have hf' : (fs.map Prod.fst).Nodup := hf
    have hg' : (gs.map Prod.fst).Nodup := hg
    rw [List.perm_ext_iff_of_nodup hf' hg']
    rw [deepEqualFields_eq_all]
    exact Iff.rfl
  · intro a b h1 h2 h3 h4
    cases a <;> cases b <;>
      simp_all [deepEqual, jsStrictEq, jsTypeof, isArray, isObject]

/-- Witness for C9: the spec's concrete examples.  A number and a
string are unequal; an object misses one of the other's keys; the
nested array example is deep-equal to itself. -/
theorem deepEqual_spec_witness :
    deepEqual (vnum 1) (vstr "1") = false ∧
    deepEqual (vobj [("a", vnum 1)]) (vobj [("a", vnum 1), ("b", vnum 2)]) = false ∧
    deepEqual (varr [vobj [("a", vnum 1)], vobj [("b", varr [vnum 1, vnum 2])]])
      (varr [vobj [("a", vnum 1)], vobj [("b", varr [vnum 1, vnum 2])]]) = true := by
  refine ⟨deepEqual_spec.1 (vnum 1) (vstr "1") (by decide), ?_, by decide⟩
  cases hde : deepEqual (vobj [("a", vnum 1)]) (vobj [("a", vnum 1), ("b", vnum 2)]) with
  | false => rfl
  | true =>
    exfalso
    have h := (deepEqual_spec.2.2.1 [("a", vnum 1)] [("a", vnum 1), ("b", vnum 2)]
      (by decide) (by decide)).mp hde
    have hb := (h.1 "b").mpr (by decide)
    simp [aKeys] at hb

/-! ## Store operation shape lemmas -/

theorem popStatus_cons (s : Store) (x : St) (l : List St) (h : s.stack = x :: l)
    (hl : l ≠ []) :
    popStatus s = if l.length == 1 then publish { s with stack := l } Event.idle
      else { s with stack := l } := by
  rw [popStatus, h, smPopRaw_cons x l hl]

theorem popStatus_short (s : Store) (h : s.stack.length ≤ 1) : popStatus s = s := by
  rw [popStatus, smPopRaw_short _ h]
  rfl

theorem flush_false_eq (s : Store) :
    flush false s =
      { s with state := flushState s.recurse s.nested s.stage s.state, cache := [] } := rfl

theorem flush_true_deep (s : Store) (x : St) (l : List St) (h : s.stack = x :: l)
    (hl : l ≠ []) :
    flush true s = { s with
      state := flushState s.recurse s.nested s.stage s.state,
      cache := [], log := s.log ++ [Event.commit] } := by
  have hf : (((x :: l).length : Nat) == 1) = false := by
    cases l with
    | nil => exact absurd rfl hl
    | cons a m => simp
  rw [flush]
  simp only [if_true]
  rw [popStatus_cons _ St.commit (x :: l) (by simp [pushStatus, smPush, publish, h])
    (List.cons_ne_nil x l), hf]
  simp only [Bool.false_eq_true, if_false]
  apply Store.ext <;> simp [publish, pushStatus, smPush, h]

theorem flush_true_idle (s : Store) (h : s.stack = [St.idle]) :
    flush true s = { s with
      state := flushState s.recurse s.nested s.stage s.state,
      cache := [], log := s.log ++ [Event.commit, Event.idle], stack := [St.idle] } := by
  rw [flush]
  simp only [if_true]
  rw [popStatus_cons _ St.commit [St.idle] (by simp [pushStatus, smPush, publish, h]) (by simp)]
  simp only [List.length_singleton, beq_self_eq_true, if_true]
  apply Store.ext <;> simp [publish, pushStatus, smPush, h]

theorem popStatus_state (s : Store) : (popStatus s).state = s.state := by
  rw [popStatus]
  by_cases hr : (smPopRaw s.stack).2 = true <;> simp [hr, publish]

theorem popStatus_stage (s : Store) : (popStatus s).stage = s.stage := by
  rw [popStatus]
  by_cases hr : (smPopRaw s.stack).2 = true <;> simp [hr, publish]

theorem popStatus_cache (s : Store) : (popStatus s).cache = s.cache := by
  rw [popStatus]
  by_cases hr : (smPopRaw s.stack).2 = true <;> simp [hr, publish]

theorem popStatus_backup (s : Store) : (popStatus s).backup = s.backup := by
  rw [popStatus]
  by_cases hr : (smPopRaw s.stack).2 = true <;> simp [hr, publish]

theorem popStatus_actions (s : Store) : (popStatus s).actions = s.actions := by
  rw [popStatus]
  by_cases hr : (smPopRaw s.stack).2 = true <;> simp [hr, publish]

theorem popStatus_mutations (s : Store) : (popStatus s).mutations = s.mutations := by
  rw [popStatus]
  by_cases hr : (smPopRaw s.stack).2 = true <;> simp [hr, publish]

theorem popStatus_getters (s : Store) : (popStatus s).getters = s.getters := by
  rw [popStatus]
  by_cases hr : (smPopRaw s.stack).2 = true <;> simp [hr, publish]

theorem popStatus_nested (s : Store) : (popStatus s).nested = s.nested := by
  rw [popStatus]
  by_cases hr : (smPopRaw s.stack).2 = true <;> simp [hr, publish]

theorem popStatus_recurse (s : Store) : (popStatus s).recurse = s.recurse := by
  rw [popStatus]
  by_cases hr : (smPopRaw s.stack).2 = true <;> simp [hr, publish]

theorem popStatus_subs (s : Store) : (popStatus s).subs = s.subs := by
  rw [popStatus]
  by_cases hr : (smPopRaw s.stack).2 = true <;> simp [hr, publish]

theorem popStatus_stack (s : Store) : (popStatus s).stack = (smPopRaw s.stack).1 := by
  rw [popStatus]
  by_cases hr : (smPopRaw s.stack).2 = true <;> simp [hr, publish]

theorem flush_stage (pub : Bool) (s : Store) : (flush pub s).stage = s.stage := by
  cases pub <;> simp [flush, popStatus_stage, publish, pushStatus]

theorem flush_cache (pub : Bool) (s : Store) : (flush pub s).cache = [] := by
  cases pub <;> simp [flush, popStatus_cache, publish, pushStatus]

theorem flush_state (pub : Bool) (s : Store) :
    (flush pub s).state = flushState s.recurse s.nested s.stage s.state := by
  cases pub <;> simp [flush, popStatus_state, publish, pushStatus]

theorem rollback_state (pub : Bool) (s : Store) : (rollback pub s).state = s.state := by
  cases pub <;> simp [rollback, popStatus_state, publish, pushStatus]

theorem rollback_stage (pub : Bool) (s : Store) : (rollback pub s).stage = s.state := by
  cases pub <;> simp [rollback, popStatus_stage, publish, pushStatus, cloneObj_eq]

theorem rollback_cache (pub : Bool) (s : Store) : (rollback pub s).cache = s.cache := by
  cases pub <;> simp [rollback, popStatus_cache, publish, pushStatus]

theorem rollback_true_deep (s : Store) (x : St) (l : List St) (h : s.stack = x :: l)
    (hl : l ≠ []) :
    rollback true s = { s with stage := s.state, log := s.log ++ [Event.rollback] } := by
  have hf : (((x :: l).length : Nat) == 1) = false := by
    cases l with
    | nil => exact absurd rfl hl
    | cons a m => simp
  rw [rollback]
  simp only [if_true]
  rw [popStatus_cons _ St.rollback (x :: l) (by simp [pushStatus, smPush, publish, h])
    (List.cons_ne_nil x l), hf]
  simp only [Bool.false_eq_true, if_false]
  apply Store.ext <;> simp [publish, pushStatus, smPush, h, cloneObj_eq]

theorem reset_none_state (s : Store) : (reset s none).state = s.backup := by
  simp [reset, popStatus_state, publish, pushStatus, cloneObj_eq]

theorem reset_none_stage (s : Store) : (reset s none).stage = s.backup := by
  simp [reset, popStatus_stage, publish, pushStatus, cloneObj_eq]

theorem reset_some_state (s : Store) (k : String) :
    (reset s (some k)).state = aSet s.state k (aGetD s.backup k vundef) := by
  simp [reset, popStatus_state, publish, pushStatus, clone_eq]

theorem reset_some_stage (s : Store) (k : String) :
    (reset s (some k)).stage = aSet s.stage k (aGetD s.backup k vundef) := by
  simp [reset, popStatus_stage, publish, pushStatus, clone_eq]

theorem reset_cache (s : Store) (key : Option String) :
    (reset s key).cache = s.cache := by
  cases key <;> simp [reset, popStatus_cache, publish, pushStatus]

theorem commit_missing (s : Store) (n : String) (p : List JSVal)
    (hm : aGet s.mutations n = none) :
    commit s n p = (s, Except.error (vstr (missingMutationMsg n))) := by
  simp [commit, hm]

theorem commit_ok_eq (s : Store) (n : String) (p : List JSVal) (m : Mut)
    (hm : aGet s.mutations n = some m) (hr : (m s.stage p).2 = none)
    (hstk : s.stack = [St.idle]) :
    commit s n p = ({ s with
      stage := (m s.stage p).1,
      state := flushState s.recurse s.nested (m s.stage p).1 s.state,
      cache := [],
      log := s.log ++ [Event.commit, Event.mutate n, Event.idle] }, Except.ok ()) := by
  obtain ⟨rec, st, sg, bk, ns, mu, ac, ge, ca, stk, lg, sb⟩ := s
  simp only at hm hr hstk ⊢
  subst hstk
  simp [commit, hm, hr, flush, popStatus, publish, pushStatus, smPush, smPopRaw]

theorem commit_throw_eq (s : Store) (n : String) (p : List JSVal) (m : Mut) (e : JSVal)
    (hm : aGet s.mutations n = some m) (hr : (m s.stage p).2 = some e)
    (hstk : s.stack = [St.idle]) :
    commit s n p = ({ s with
      stage := (m s.stage p).1,
      log := s.log ++ [Event.idle] }, Except.error e) := by
  obtain ⟨rec, st, sg, bk, ns, mu, ac, ge, ca, stk, lg, sb⟩ := s
  simp only at hm hr hstk ⊢
  subst hstk
  simp [commit, hm, hr, popStatus, publish, pushStatus, smPush, smPopRaw]

/-! ## C7: reset scoping -/

/-- C7: reset with a field name present in backup restores only that
field in both state and stage from the backup, leaving every other
field of state and stage unchanged; reset without a field name restores
everything; on the concrete trace from state a = 1, b = 2 with commits
a := 99 and b := 88 followed by reset of a, state and stage read a = 1
and b = 88. -/
theorem reset_scoping (s : Store) (k : String) (v : JSVal)
    (hk : aGet s.backup k = some v) :
    (aGet (reset s (some k)).state k = some v ∧
     aGet (reset s (some k)).stage k = some v ∧
     ∀ k', k' ≠ k →
       aGet (reset s (some k)).state k' = aGet s.state k' ∧
       aGet (reset s (some k)).stage k' = aGet s.stage k') ∧
    ((reset s none).state = s.backup ∧ (reset s none).stage = s.backup) ∧
    (abReset.state = [("a", vnum 1), ("b", vnum 88)] ∧
     abReset.stage = [("a", vnum 1), ("b", vnum 88)]) := by
  refine ⟨⟨?_, ?_, ?_⟩, ⟨reset_none_state s, reset_none_stage s⟩, rfl, rfl⟩
  · rw [reset_some_state]
    simp [aGetD, hk, aGet_aSet_self]
  · rw [reset_some_stage]
    simp [aGetD, hk, aGet_aSet_self]
  · intro k' hne
    constructor
    · rw [reset_some_state]
      exact aGet_aSet_ne _ _ _ _ hne
    · rw [reset_some_stage]
      exact aGet_aSet_ne _ _ _ _ hne

/-- Witness for C7 at the two-field store: resetting a restores its
backup value and leaves b at its committed value. -/
theorem reset_scoping_witness :
    aGet (reset storeAB (some "a")).state "a" = some (vnum 1) ∧
    aGet (reset storeAB (some "a")).state "b" = aGet storeAB.state "b" := by
  have h := reset_scoping storeAB "a" (vnum 1) rfl
  exact ⟨h.1.1, (h.1.2.2 "b" (by decide)).1⟩

/-! ## C10: no default setter for fields registered later -/

/-- C10: the constructor synthesizes default setter mutations only for
construction-time state fields.  Registering a new state field f later
adds it (with its value) to state and stage, but synthesizes no setter,
so commit(f, x) raises the missing-mutation error and leaves the store
exactly as it was. -/
theorem register_no_default_setter (p : Params) (f : String) (v : JSVal)
    (payload : List JSVal)
    (hf1 : f ∉ aKeys p.state) (hf2 : f ∉ aKeys p.mutations) :
    commit (register (mkStore p) { state := [(f, v)] }) f payload =
      (register (mkStore p) { state := [(f, v)] },
        Except.error (vstr (missingMutationMsg f))) ∧
    aGet (register (mkStore p) { state := [(f, v)] }).state f = some v ∧
    aGet (register (mkStore p) { state := [(f, v)] }).stage f = some v := by
  have hmut : aGet (register (mkStore p) { state := [(f, v)] }).mutations f = none := by
    have h1 : aGet (aAssign ((p.state.map Prod.fst).foldl
        (fun acc k => aSet acc k (defaultMutation k))
        (aAssign ([] : List (String × Mut)) p.mutations)) p.mutations) f = none := by
      rw [aGet_aAssign_not_mem _ _ _ hf2,
        aGet_foldl_aSet_not_mem _ _ _ _ (show f ∉ p.state.map Prod.fst from hf1),
        aGet_aAssign_not_mem _ _ _ hf2]
      rfl
    exact h1
  have hstate : aGet (register (mkStore p) { state := [(f, v)] }).state f = some v := by
    show aGet (aAssign (mkStore p).state (cloneObj [(f, v)])) f = some v
    rw [cloneObj_eq]
    exact aGet_aSet_self _ _ _
  have hstage : aGet (register (mkStore p) { state := [(f, v)] }).stage f = some v := by
    show aGet (aAssign (mkStore p).stage (cloneObj [(f, v)])) f = some v
    rw [cloneObj_eq]
    exact aGet_aSet_self _ _ _
  exact ⟨commit_missing _ _ _ hmut, hstate, hstage⟩

/-- Witness for C10: the concrete store that registers field f after
construction; committing to f fails with the missing-mutation error and
the field keeps its registered value. -/
theorem register_no_default_setter_witness :
    commit regStore "f" [vnum 8] = (regStore, Except.error (vstr (missingMutationMsg "f"))) ∧
    aGet regStore.state "f" = some (vnum 4) := by
  have h := register_no_default_setter { state := [("a", vnum 1)] } "f" (vnum 4) [vnum 8]
    (by decide) (by decide)
  exact ⟨h.1, h.2.1⟩

/-! ## C3: error propagation and rollback -/

/-- Counterexample to C3: a mutation that writes the stage and then
throws.  The error propagates verbatim, but commit does not roll the
stage back before propagation: the stage keeps the partial write x = 9
while state still holds x = 0 (so stage is not a copy of state), and no
rollback notification is published (the log gains only the idle pop). -/
theorem mutation_error_no_rollback_cex :
    (commit badMutStore "badMut" []).2 = Except.error (vstr "mboom") ∧
    (commit badMutStore "badMut" []).1.stage = [("x", vnum 9)] ∧
    (commit badMutStore "badMut" []).1.state = [("x", vnum 0)] ∧
    (commit badMutStore "badMut" []).1.stage ≠ (commit badMutStore "badMut" []).1.state ∧
    (commit badMutStore "badMut" []).1.log = [Event.idle] := by
  refine ⟨rfl, rfl, rfl, ?_, rfl⟩
  intro h
  rw [show (commit badMutStore "badMut" []).1.stage = [("x", vnum 9)] from rfl,
    show (commit badMutStore "badMut" []).1.state = [("x", vnum 0)] from rfl] at h
  simp at h

/-- C3 amended: an error thrown from an action body during dispatch
propagates verbatim to the caller and the stage is automatically rolled
back (overwritten with a copy of the current state) before propagation;
an error thrown from a mutation body during commit also propagates
verbatim, but WITHOUT a rollback: the stage keeps the mutation's
partial writes, the state is untouched, and only the idle pop
notification is published. -/
theorem error_propagation :
    (∀ (fuel : Nat) (s : Store) (name : String) (p : List JSVal)
       (bodyFn : List JSVal → List Act) (s2 : Store) (e : JSVal),
       aGet s.actions name = some bodyFn →
       runActs fuel (pushStatus s St.dispatch) (bodyFn p) = some (s2, Except.error e) →
       dispatch fuel s name p = some (popStatus (rollback true s2), Except.error e) ∧
       (popStatus (rollback true s2)).stage = (popStatus (rollback true s2)).state) ∧
    (∀ (s : Store) (name : String) (p : List JSVal) (m : Mut) (e : JSVal),
       aGet s.mutations name = some m → (m s.stage p).2 = some e →
       s.stack = [St.idle] →
       commit s name p = ({ s with
         stage := (m s.stage p).1,
         log := s.log ++ [Event.idle] }, Except.error e)) := by
  constructor
  · intro fuel s name p bodyFn s2 e ha hrun
    constructor
    · simp [dispatch, dispatchWith, ha, hrun]
    · rw [popStatus_stage, popStatus_state, rollback_stage, rollback_state]
  · intro s name p m e hm hr hstk
    exact commit_throw_eq s name p m e hm hr hstk

/-- Witness for C3 amended: the throwing action rolls the stage back to
state and the error comes through verbatim; the throwing mutation
leaves its partial stage write in place with only the idle pop. -/
theorem error_propagation_witness :
    ∃ s2 : Store,
      dispatch 1 failStore "fail" [] =
        some (popStatus (rollback true s2), Except.error (vstr "err")) ∧
      (popStatus (rollback true s2)).stage = (popStatus (rollback true s2)).state ∧
      commit badMutStore "badMut" [] = ({ badMutStore with
        stage := (badMutation badMutStore.stage []).1,
        log := badMutStore.log ++ [Event.idle] }, Except.error (vstr "mboom")) := by
  obtain ⟨s2, hs2⟩ : ∃ s2, runActs 1 (pushStatus failStore St.dispatch) (failBody []) =
      some (s2, Except.error (vstr "err")) := ⟨_, rfl⟩
  have h1 := error_propagation.1 1 failStore "fail" [] failBody s2 (vstr "err") rfl hs2
  have h2 := error_propagation.2 badMutStore "badMut" [] badMutation (vstr "mboom") rfl rfl rfl
  exact ⟨s2, h1.1, h1.2, h2⟩

/-! ## C2: rollback atomicity for failing actions -/

theorem runSteps_writes_throw
    (disp : Store → String → List JSVal → Option (Store × Except JSVal Unit))
    (s : Store) (writes : List (String × (Obj → JSVal))) (e : JSVal) :
    runSteps disp s (writes.map (fun w => Act.setStage w.1 w.2) ++ [Act.throwA e]) =
      some ({ s with stage := writes.foldl (fun st w => aSet st w.1 (w.2 st)) s.stage },
        Except.error e) := by
  induction writes generalizing s with
  | nil => rfl
  | cons w ws ih =>
    simp only [List.map_cons, List.cons_append, runSteps, List.append_eq]
    rw [ih]
    rfl

theorem runActs_writes_throw (fuel : Nat) (s : Store)
    (writes : List (String × (Obj → JSVal))) (e : JSVal) :
    runActs fuel s (writes.map (fun w => Act.setStage w.1 w.2) ++ [Act.throwA e]) =
      some ({ s with stage := writes.foldl (fun st w => aSet st w.1 (w.2 st)) s.stage },
        Except.error e) := by
  cases fuel with
  | zero => exact runSteps_writes_throw _ s writes e
  | succ f => exact runSteps_writes_throw _ s writes e

/-- C2: rollback atomicity.  For every action body that performs N >= 1
stage writes through the context's state reference and then throws, the
failed dispatch propagates the error and leaves the committed state
exactly as before the call (so in particular deep-equal to it), and the
stage is rolled back to that state. -/
theorem rollback_atomicity (fuel : Nat) (s : Store) (name : String) (p : List JSVal)
    (bodyFn : List JSVal → List Act) (writes : List (String × (Obj → JSVal))) (e : JSVal)
    (_hN : writes ≠ [])
    (_hstk : s.stack = [St.idle])
    (ha : aGet s.actions name = some bodyFn)
    (hb : bodyFn p = writes.map (fun w => Act.setStage w.1 w.2) ++ [Act.throwA e])
    (hw : WFVal (vobj s.state)) :
    ∃ s', dispatch fuel s name p = some (s', Except.error e) ∧
      s'.state = s.state ∧ s'.stage = s.state ∧
      deepEqual (vobj s'.state) (vobj s.state) = true := by
  have hrun : runActs fuel (pushStatus s St.dispatch) (bodyFn p) =
      some ({ pushStatus s St.dispatch with
        stage := writes.foldl (fun st w => aSet st w.1 (w.2 st)) s.stage }, Except.error e) := by
    rw [hb]
    exact runActs_writes_throw fuel _ writes e
  refine ⟨popStatus (rollback true ({ pushStatus s St.dispatch with
    stage := writes.foldl (fun st w => aSet st w.1 (w.2 st)) s.stage })), ?_, ?_, ?_, ?_⟩
  · simp only [dispatch, dispatchWith, ha]
    rw [hrun]
  · rw [popStatus_state, rollback_state]
    rfl
  · rw [popStatus_stage, rollback_stage]
    rfl
  · rw [popStatus_state, rollback_state]
    exact deepEqual_refl _ hw

/-- Witness for C2: the store whose action stages x := 9 and throws;
the failed dispatch leaves state at x = 0 and rolls the stage back. -/
theorem rollback_atomicity_witness :
    ∃ s', dispatch 1 failStore "fail" [] = some (s', Except.error (vstr "err")) ∧
      s'.state = failStore.state ∧ s'.stage = failStore.state := by
  obtain ⟨s', h1, h2, h3, h4⟩ := rollback_atomicity 1 failStore "fail" [] failBody
    [("x", fun _ => vnum 9)] (vstr "err") (by simp) rfl rfl rfl
    (by show WFVal (vobj [("x", vnum 0)]); simp [WFVal, WFFields])
  exact ⟨s', h1, h2, h3⟩

/-! ## C5: flushing twice -/

/-- Counterexample to C5: two flushes in a row with no intervening
stage change.  The second flush leaves state unchanged, but it does
publish a second commit notification — the log gains another commit
entry, since flush has no deepEqual short-circuit and publishes
unconditionally. -/
theorem flush_republish_cex :
    (flush true (flush true storeAB)).state = (flush true storeAB).state ∧
    (flush true (flush true storeAB)).log =
      [Event.commit, Event.idle, Event.commit, Event.idle] ∧
    (flush true storeAB).log = [Event.commit, Event.idle] := by
  exact ⟨rfl, rfl, rfl⟩

theorem aGet_filter_key {α : Type} (l : List (String × α)) (p : String → Bool) (k : String)
    (hp : p k = true) : aGet (l.filter fun kv => p kv.1) k = aGet l k := by
  induction l with
  | nil => rfl
  | cons kv rest ih =>
    by_cases hk : kv.1 = k
    · have hpk : p kv.1 = true := by
        rw [hk]
        exact hp
      simp [List.filter_cons, hpk, aGet, hk, hp]
    · by_cases hkv : p kv.1 = true
      · simp [List.filter_cons, hkv, aGet, hk, ih]
      · simp only [List.filter_cons]
        rw [if_neg (by simpa using hkv)]
        rw [ih, aGet, if_neg hk]

theorem nodup_foldl_aSet {α : Type} (f : String → α) (ks : List String)
    (acc : List (String × α)) (h : (aKeys acc).Nodup) :
    (aKeys (ks.foldl (fun a k => aSet a k (f k)) acc)).Nodup := by
  induction ks generalizing acc with
  | nil => exact h
  | cons k ks ih =>
    rw [List.foldl_cons]
    exact ih _ (nodup_aKeys_aSet _ _ _ h)

theorem foldl_aSet_noop {α : Type} (f : String → α) (ks : List String)
    (acc : List (String × α)) (hnd : (aKeys acc).Nodup)
    (h : ∀ k ∈ ks, aGet acc k = some (f k)) :
    ks.foldl (fun a k => aSet a k (f k)) acc = acc := by
  induction ks with
  | nil => rfl
  | cons k ks ih =>
    rw [List.foldl_cons, aSet_noop _ _ _ hnd (h k (List.mem_cons_self k ks))]
    exact ih fun k' hk' => h k' (List.mem_cons_of_mem k hk')

theorem flushMerge_fun_eq (nested : List String) (stage : Obj) :
    (fun (acc : Obj) k =>
      if k ∈ nested then aSet acc k (spreadObj (aGetD stage k vundef))
      else aSet acc k (aGetD stage k vundef)) =
    fun (acc : Obj) k => aSet acc k
      (if k ∈ nested then spreadObj (aGetD stage k vundef) else aGetD stage k vundef) := by
  funext acc k
  by_cases h : k ∈ nested <;> simp [h]

theorem flushMerge_lookup (nested : List String) (stage state : Obj) (k : String)
    (hnd : (aKeys stage).Nodup) (hk : k ∈ aKeys stage) :
    aGet (flushMerge nested stage state) k =
      some (if k ∈ nested then spreadObj (aGetD stage k vundef)
        else aGetD stage k vundef) := by
  rw [flushMerge]
  simp only [flushMerge_fun_eq]
  rw [aGet_filter_key _ _ _ ?hp]
  case hp =>
    rcases List.mem_map.mp hk with ⟨kv, hkv, hkk⟩
    exact List.any_eq_true.mpr ⟨kv, hkv, by simpa using hkk⟩
  rw [aGet_foldl_aSet _ _ _ _ (show (stage.map Prod.fst).Nodup from hnd),
    if_pos (show k ∈ stage.map Prod.fst from hk)]

theorem flushMerge_mem_stage (nested : List String) (stage state : Obj) :
    ∀ kv ∈ flushMerge nested stage state, aHasKey stage kv.1 = true := by
  intro kv hkv
  rw [flushMerge] at hkv
  simp only [List.mem_filter] at hkv
  exact hkv.2

theorem flushMerge_nodup (nested : List String) (stage state : Obj)
    (hnd : (aKeys state).Nodup) :
    (aKeys (flushMerge nested stage state)).Nodup := by
  rw [flushMerge]
  simp only [flushMerge_fun_eq]
  have h1 := nodup_foldl_aSet
    (fun k => if k ∈ nested then spreadObj (aGetD stage k vundef) else aGetD stage k vundef)
    (stage.map Prod.fst) state hnd
  have hsub : List.Sublist
      ((List.filter (fun kv => aHasKey stage kv.1)
        ((stage.map Prod.fst).foldl (fun a k => aSet a k
          (if k ∈ nested then spreadObj (aGetD stage k vundef) else aGetD stage k vundef))
          state)).map Prod.fst)
      (((stage.map Prod.fst).foldl (fun a k => aSet a k
        (if k ∈ nested then spreadObj (aGetD stage k vundef) else aGetD stage k vundef))
        state).map Prod.fst) :=
    (List.filter_sublist _).map Prod.fst
  exact List.Nodup.sublist hsub h1

theorem flushMerge_idem (nested : List String) (stage state : Obj)
    (hst : (aKeys stage).Nodup) (hsd : (aKeys state).Nodup) :
    flushMerge nested stage (flushMerge nested stage state) =
      flushMerge nested stage state := by
  have hnd1 := flushMerge_nodup nested stage state hsd
  conv_lhs => rw [flushMerge]
  simp only [flushMerge_fun_eq]
  rw [foldl_aSet_noop _ _ _ hnd1 ?hvals]
  case hvals =>
    intro k hk
    exact flushMerge_lookup nested stage state k hst hk
  rw [List.filter_eq_self.mpr]
  intro kv hkv
  exact flushMerge_mem_stage nested stage state kv hkv

theorem flushState_idem (r : Bool) (n : List String) (stage state : Obj)
    (hst : (aKeys stage).Nodup) (hsd : (aKeys state).Nodup) :
    flushState r n stage (flushState r n stage state) = flushState r n stage state := by
  by_cases hr : r
  · simp [flushState, hr]
  · by_cases hn : n.isEmpty
    · simp [flushState, hr, hn]
    · simp only [flushState, hr, hn, if_false, Bool.false_eq_true]
      exact flushMerge_idem n stage state hst hsd

/-- C5 amended: calling flush() twice in a row with no intervening
stage change leaves state unchanged after the second call, but the
second flush is not a notification no-op: each flush publishes a commit
notification (and the idle pop) unconditionally — there is no deepEqual
short-circuit in flush. -/
theorem flush_twice (s : Store)
    (h1 : (aKeys s.stage).Nodup) (h2 : (aKeys s.state).Nodup)
    (hstk : s.stack = [St.idle]) :
    (flush true (flush true s)).state = (flush true s).state ∧
    (flush true (flush true s)).log = (flush true s).log ++ [Event.commit, Event.idle] ∧
    (flush true s).log = s.log ++ [Event.commit, Event.idle] := by
  have hA := flush_true_idle s hstk
  have hstk2 : (flush true s).stack = [St.idle] := by rw [hA]
  have hB := flush_true_idle (flush true s) hstk2
  refine ⟨?_, ?_, by rw [hA]⟩
  · rw [hB, hA]
    exact flushState_idem s.recurse s.nested s.stage s.state h1 h2
  · rw [hB]

/-- Witness for C5 amended at the two-field store: the second flush
preserves state and publishes another commit/idle pair. -/
theorem flush_twice_witness :
    (flush true (flush true storeAB)).state = (flush true storeAB).state ∧
    (flush true (flush true storeAB)).log =
      (flush true storeAB).log ++ [Event.commit, Event.idle] := by
  have h := flush_twice storeAB (by decide) (by decide) rfl
  exact ⟨h.1, h.2.1⟩

/-! ## Stack preservation through the operations -/

theorem publish_stack (s : Store) (e : Event) : (publish s e).stack = s.stack := rfl

theorem pushStatus_stack (s : Store) (t : St) : (pushStatus s t).stack = t :: s.stack := rfl

theorem flush_stack (pub : Bool) (s : Store) (h : s.stack ≠ []) :
    (flush pub s).stack = s.stack := by
  cases pub with
  | false => rfl
  | true =>
    rw [flush]
    simp only [if_true]
    rw [popStatus_stack]
    show (smPopRaw (St.commit :: s.stack)).1 = s.stack
    rw [smPopRaw_cons _ _ h]

theorem rollback_stack (pub : Bool) (s : Store) (h : s.stack ≠ []) :
    (rollback pub s).stack = s.stack := by
  cases pub with
  | false => rfl
  | true =>
    rw [rollback]
    simp only [if_true]
    rw [popStatus_stack]
    show (smPopRaw (St.rollback :: s.stack)).1 = s.stack
    rw [smPopRaw_cons _ _ h]

theorem commit_stack (s : Store) (n : String) (p : List JSVal) (h : s.stack ≠ []) :
    (commit s n p).1.stack = s.stack := by
  rcases hm : aGet s.mutations n with _ | m
  · rw [commit_missing s n p hm]
  · simp only [commit, hm]
    split
    · rw [popStatus_stack]
      show (smPopRaw (St.mutate :: s.stack)).1 = s.stack
      rw [smPopRaw_cons _ _ h]
    · rw [popStatus_stack, publish_stack]
      rw [flush_stack true _ (show (St.mutate :: s.stack) ≠ [] from by simp)]
      show (smPopRaw (St.mutate :: s.stack)).1 = s.stack
      rw [smPopRaw_cons _ _ h]

theorem runSteps_stack
    (disp : Store → String → List JSVal → Option (Store × Except JSVal Unit))
    (hdisp : ∀ s n p out, s.stack ≠ [] → disp s n p = some out → out.1.stack = s.stack) :
    ∀ acts (s : Store) out, s.stack ≠ [] → runSteps disp s acts = some out →
      out.1.stack = s.stack := by
  intro acts
  induction acts with
  | nil =>
    intro s out h hr
    obtain rfl := Option.some.inj hr
    rfl
  | cons a rest ih =>
    intro s out h hr
    cases a with
    | setStage k f =>
      rw [runSteps] at hr
      have hx := ih { s with stage := aSet s.stage k (f s.stage) } out h hr
      exact hx
    | throwA e =>
      rw [runSteps] at hr
      obtain rfl := Option.some.inj hr
      rfl
    | commitA n p =>
      rw [runSteps] at hr
      obtain rfl := Option.some.inj hr
      rfl
    | dispatchA n p =>
      rw [runSteps] at hr
      obtain rfl := Option.some.inj hr
      rfl
    | applyA n p =>
      rw [runSteps] at hr
      rcases hd : disp s n p with _ | ⟨s', r⟩
      · rw [hd] at hr
        cases hr
      · rw [hd] at hr
        have hs' : s'.stack = s.stack := hdisp s n p (s', r) h hd
        cases r with
        | error e =>
          obtain rfl := Option.some.inj hr
          exact hs'
        | ok u =>
          have := ih s' out (by rw [hs']; exact h) hr
          rw [this, hs']

theorem dispatchWith_stack
    (runA : Store → List Act → Option (Store × Except JSVal Unit))
    (hrunA : ∀ (s : Store) acts out, s.stack ≠ [] → runA s acts = some out →
      out.1.stack = s.stack) :
    ∀ (s : Store) n p out, s.stack ≠ [] → dispatchWith runA s n p = some out →
      out.1.stack = s.stack := by
  intro s n p out h hd
  rcases ha : aGet s.actions n with _ | body
  · simp only [dispatchWith, ha] at hd
    obtain rfl := Option.some.inj hd
    rfl
  · simp only [dispatchWith, ha] at hd
    split at hd
    · cases hd
    · rename_i s2 e heq
      obtain rfl := Option.some.inj hd
      have hs2 : s2.stack = St.dispatch :: s.stack :=
        hrunA _ _ _ (by simp [pushStatus, smPush]) heq
      rw [popStatus_stack, rollback_stack true s2 (by rw [hs2]; simp), hs2,
        smPopRaw_cons _ _ h]
    · rename_i s2 u heq
      obtain rfl := Option.some.inj hd
      have hs2 : s2.stack = St.dispatch :: s.stack :=
        hrunA _ _ _ (by simp [pushStatus, smPush]) heq
      by_cases hprev : smPrevious s2.stack = St.idle
      · simp only [if_pos hprev]
        rw [popStatus_stack, publish_stack, flush_stack true s2 (by rw [hs2]; simp), hs2,
          smPopRaw_cons _ _ h]
      · simp only [if_neg hprev]
        rw [popStatus_stack, hs2, smPopRaw_cons _ _ h]

theorem runActs_stack (fuel : Nat) :
    ∀ acts (s : Store) out, s.stack ≠ [] → runActs fuel s acts = some out →
      out.1.stack = s.stack := by
  induction fuel with
  | zero =>
    exact runSteps_stack noDispatch (fun s n p out h hd => by cases hd)
  | succ f ih =>
    exact runSteps_stack _ (fun s n p out h hd =>
      dispatchWith_stack (runActs f) (fun s' acts' out' h' hd' => ih acts' s' out' h' hd')
        s n p out h hd)

/-! ## C6: getter memo cache invalidation -/

/-- Counterexample to C6: the counter store with the doubled getter.
Reading doubled memoises 0; after commit counter := 5 the next read
recomputes 10; but after reset (which changes state back to counter =
0) the next read still returns the memoized 10 — reset does not clear
the getter cache, so the value is stale instead of being recomputed. -/
theorem getter_cache_reset_cex :
    counterRead0.1 = some (vnum 0) ∧
    counterRead1.1 = some (vnum 10) ∧
    counterC5.state = [("counter", vnum 5)] ∧
    counterReset.state = [("counter", vnum 0)] ∧
    (getRead counterReset "doubled").1 = some (vnum 10) := by
  exact ⟨rfl, rfl, rfl, rfl, rfl⟩

/-- C6 amended: after a successful commit, and after a successful
outermost dispatch, the getter memo cache is cleared (the flush empties
it), so a previously memoized getter value is recomputed on next
access; the concrete example reads doubled = 0 and then, after commit
counter := 5, doubled = 10.  reset, however, leaves the cache
untouched, so a memoized value can remain stale after reset. -/
theorem getter_cache_invalidation :
    (∀ (s : Store) (n : String) (p : List JSVal) (s' : Store),
       commit s n p = (s', Except.ok ()) → s'.cache = []) ∧
    (∀ (fuel : Nat) (s : Store) (n : String) (p : List JSVal) (s' : Store),
       s.stack = [St.idle] → dispatch fuel s n p = some (s', Except.ok ()) →
       s'.cache = []) ∧
    (∀ (s : Store) (k : Option String), (reset s k).cache = s.cache) ∧
    (counterRead0.1 = some (vnum 0) ∧ counterRead1.1 = some (vnum 10)) := by
  refine ⟨?_, ?_, reset_cache, rfl, rfl⟩
  · intro s n p s' hc
    rcases hm : aGet s.mutations n with _ | m
    · rw [commit_missing s n p hm] at hc
      injection hc with hA hB
      exact Except.noConfusion hB
    · simp only [commit, hm] at hc
      split at hc
      · injection hc with hA hB
        exact Except.noConfusion hB
      · injection hc with hA hB
        rw [← hA, popStatus_cache]
        show (flush true _).cache = []
        exact flush_cache true _
  · intro fuel s n p s' hstk hd
    rcases ha : aGet s.actions n with _ | body
    · simp only [dispatch, dispatchWith, ha] at hd
      obtain hpair := Option.some.inj hd
      injection hpair with hA hB
      exact Except.noConfusion hB
    · simp only [dispatch, dispatchWith, ha] at hd
      split at hd
      · cases hd
      · rename_i s2 e heq
        obtain hpair := Option.some.inj hd
        injection hpair with hA hB
        exact Except.noConfusion hB
      · rename_i s2 u heq
        obtain hpair := Option.some.inj hd
        injection hpair with hA hB
        have hs2 : s2.stack = St.dispatch :: s.stack :=
          runActs_stack fuel _ _ _ (by simp [pushStatus, smPush]) heq
        have hprev : smPrevious s2.stack = St.idle := by
          rw [hs2, hstk]
          rfl
        rw [if_pos hprev] at hA
        rw [← hA, popStatus_cache]
        show (flush true s2).cache = []
        exact flush_cache true s2

/-- Witness for C6 amended: the concrete commit clears the cache, and
reset leaves the cache of the counter store untouched. -/
theorem getter_cache_invalidation_witness :
    counterC5.cache = [] ∧
    (reset counterRead1.2 none).cache = counterRead1.2.cache := by
  refine ⟨?_, getter_cache_invalidation.2.2.1 counterRead1.2 none⟩
  exact getter_cache_invalidation.1 counterRead0.2 "counter" [vnum 5] counterC5 rfl

/-! ## C1: nested dispatch atomicity -/

theorem popStatus_log (s : Store) :
    (popStatus s).log =
      if (smPopRaw s.stack).2 = true then s.log ++ [Event.idle] else s.log := by
  rw [popStatus]
  by_cases hr : (smPopRaw s.stack).2 = true <;> simp [hr, publish]

theorem flush_backup (pub : Bool) (s : Store) : (flush pub s).backup = s.backup := by
  cases pub <;> simp [flush, popStatus_backup, publish, pushStatus]

theorem flush_actions (pub : Bool) (s : Store) : (flush pub s).actions = s.actions := by
  cases pub <;> simp [flush, popStatus_actions, publish, pushStatus]

theorem flush_mutations (pub : Bool) (s : Store) : (flush pub s).mutations = s.mutations := by
  cases pub <;> simp [flush, popStatus_mutations, publish, pushStatus]

theorem flush_getters (pub : Bool) (s : Store) : (flush pub s).getters = s.getters := by
  cases pub <;> simp [flush, popStatus_getters, publish, pushStatus]

theorem flush_nested (pub : Bool) (s : Store) : (flush pub s).nested = s.nested := by
  cases pub <;> simp [flush, popStatus_nested, publish, pushStatus]

theorem flush_recurse (pub : Bool) (s : Store) : (flush pub s).recurse = s.recurse := by
  cases pub <;> simp [flush, popStatus_recurse, publish, pushStatus]

theorem flush_subs (pub : Bool) (s : Store) : (flush pub s).subs = s.subs := by
  cases pub <;> simp [flush, popStatus_subs, publish, pushStatus]

theorem rollback_backup (pub : Bool) (s : Store) : (rollback pub s).backup = s.backup := by
  cases pub <;> simp [rollback, popStatus_backup, publish, pushStatus]

theorem rollback_actions (pub : Bool) (s : Store) : (rollback pub s).actions = s.actions := by
  cases pub <;> simp [rollback, popStatus_actions, publish, pushStatus]

theorem rollback_mutations (pub : Bool) (s : Store) :
    (rollback pub s).mutations = s.mutations := by
  cases pub <;> simp [rollback, popStatus_mutations, publish, pushStatus]

theorem rollback_getters (pub : Bool) (s : Store) : (rollback pub s).getters = s.getters := by
  cases pub <;> simp [rollback, popStatus_getters, publish, pushStatus]

theorem rollback_nested (pub : Bool) (s : Store) : (rollback pub s).nested = s.nested := by
  cases pub <;> simp [rollback, popStatus_nested, publish, pushStatus]

theorem rollback_recurse (pub : Bool) (s : Store) : (rollback pub s).recurse = s.recurse := by
  cases pub <;> simp [rollback, popStatus_recurse, publish, pushStatus]

theorem rollback_subs (pub : Bool) (s : Store) : (rollback pub s).subs = s.subs := by
  cases pub <;> simp [rollback, popStatus_subs, publish, pushStatus]

theorem runSteps_frame
    (disp : Store → String → List JSVal → Option (Store × Except JSVal Unit))
    (hdisp : ∀ (s : Store) n p out,
      2 ≤ s.stack.length → s.stack.headD St.idle ≠ St.idle →
      disp s n p = some out →
      out.1 = { s with stage := out.1.stage, log := out.1.log } ∧
      (out.2 = Except.ok () → out.1.log = s.log)) :
    ∀ acts (s : Store) out,
      2 ≤ s.stack.length → s.stack.headD St.idle ≠ St.idle →
      runSteps disp s acts = some out →
      out.1 = { s with stage := out.1.stage, log := out.1.log } ∧
      (out.2 = Except.ok () → out.1.log = s.log) := by
  intro acts
  induction acts with
  | nil =>
    intro s out hlen hhd hr
    obtain rfl := Option.some.inj hr
    exact ⟨rfl, fun _ => rfl⟩
  | cons a rest ih =>
    intro s out hlen hhd hr
    cases a with
    | setStage k f =>
      rw [runSteps] at hr
      have hx := ih { s with stage := aSet s.stage k (f s.stage) } out hlen hhd hr
      exact hx
    | throwA e =>
      rw [runSteps] at hr
      obtain rfl := Option.some.inj hr
      exact ⟨rfl, fun hok => Except.noConfusion hok⟩
    | commitA n p =>
      rw [runSteps] at hr
      obtain rfl := Option.some.inj hr
      exact ⟨rfl, fun hok => Except.noConfusion hok⟩
    | dispatchA n p =>
      rw [runSteps] at hr
      obtain rfl := Option.some.inj hr
      exact ⟨rfl, fun hok => Except.noConfusion hok⟩
    | applyA n p =>
      rw [runSteps] at hr
      rcases hd : disp s n p with _ | ⟨s', r⟩
      · rw [hd] at hr
        cases hr
      · rw [hd] at hr
        have hds := hdisp s n p (s', r) hlen hhd hd
        cases r with
        | error e =>
          obtain rfl := Option.some.inj hr
          exact ⟨hds.1, fun hok => Except.noConfusion hok⟩
        | ok u =>
          have hlog : s'.log = s.log := hds.2 rfl
          have hrec : s' = { s with stage := s'.stage } := by
            have h1 := hds.1
            rw [hlog] at h1
            exact h1
          have hx := ih s' out
            (by rw [hrec]; exact hlen)
            (by rw [hrec]; exact hhd)
            hr
          constructor
          · have h2 := hx.1
            rw [hrec] at h2
            exact h2
          · intro hok
            exact (hx.2 hok).trans hlog

theorem dispatchWith_frame
    (runA : Store → List Act → Option (Store × Except JSVal Unit))
    (hrunA : ∀ acts (s : Store) out,
      2 ≤ s.stack.length → s.stack.headD St.idle ≠ St.idle →
      runA s acts = some out →
      out.1 = { s with stage := out.1.stage, log := out.1.log } ∧
      (out.2 = Except.ok () → out.1.log = s.log)) :
    ∀ (s : Store) n p out,
      2 ≤ s.stack.length → s.stack.headD St.idle ≠ St.idle →
      dispatchWith runA s n p = some out →
      out.1 = { s with stage := out.1.stage, log := out.1.log } ∧
      (out.2 = Except.ok () → out.1.log = s.log) := by
  intro s n p out hlen hhd hd
  have hsne : s.stack ≠ [] := by
    intro hnil
    rw [hnil] at hlen
    simp at hlen
  rcases ha : aGet s.actions n with _ | body
  · simp only [dispatchWith, ha] at hd
    obtain rfl := Option.some.inj hd
    exact ⟨rfl, fun _ => rfl⟩
  · simp only [dispatchWith, ha] at hd
    have hs1len : 2 ≤ (pushStatus s St.dispatch).stack.length := by
      simp [pushStatus, smPush]
      omega
    have hs1hd : (pushStatus s St.dispatch).stack.headD St.idle ≠ St.idle := by
      simp [pushStatus, smPush]
    split at hd
    · cases hd
    · rename_i s2 e heq
      obtain rfl := Option.some.inj hd
      have hfr := hrunA (body p) (pushStatus s St.dispatch) (s2, Except.error e)
        hs1len hs1hd heq
      have hsk2 : s2.stack = St.dispatch :: s.stack := by have h := congrArg Store.stack hfr.1; exact h
      have hs2ne : s2.stack ≠ [] := by
        rw [hsk2]
        simp
      refine ⟨?_, fun hok => Except.noConfusion hok⟩
      have hstt : s2.state = s.state := by have h := congrArg Store.state hfr.1; exact h
      have hbk : s2.backup = s.backup := by have h := congrArg Store.backup hfr.1; exact h
      have hca : s2.cache = s.cache := by have h := congrArg Store.cache hfr.1; exact h
      have hac : s2.actions = s.actions := by have h := congrArg Store.actions hfr.1; exact h
      have hmu : s2.mutations = s.mutations := by have h := congrArg Store.mutations hfr.1; exact h
      have hge : s2.getters = s.getters := by have h := congrArg Store.getters hfr.1; exact h
      have hne : s2.nested = s.nested := by have h := congrArg Store.nested hfr.1; exact h
      have hre : s2.recurse = s.recurse := by have h := congrArg Store.recurse hfr.1; exact h
      have hsb : s2.subs = s.subs := by have h := congrArg Store.subs hfr.1; exact h
      apply Store.ext
      · rw [popStatus_recurse, rollback_recurse, hre]
      · rw [popStatus_state, rollback_state, hstt]
      · rfl
      · rw [popStatus_backup, rollback_backup, hbk]
      · rw [popStatus_nested, rollback_nested, hne]
      · rw [popStatus_mutations, rollback_mutations, hmu]
      · rw [popStatus_actions, rollback_actions, hac]
      · rw [popStatus_getters, rollback_getters, hge]
      · rw [popStatus_cache, rollback_cache, hca]
      · rw [popStatus_stack, rollback_stack true s2 hs2ne, hsk2, smPopRaw_cons _ _ hsne]
      · rfl
      · rw [popStatus_subs, rollback_subs, hsb]
    · rename_i s2 u heq
      obtain rfl := Option.some.inj hd
      have hfr := hrunA (body p) (pushStatus s St.dispatch) (s2, Except.ok u)
        hs1len hs1hd heq
      have hsk2 : s2.stack = St.dispatch :: s.stack := by have h := congrArg Store.stack hfr.1; exact h
      have hlog2 : s2.log = s.log := hfr.2 rfl
      have hstt : s2.state = s.state := by have h := congrArg Store.state hfr.1; exact h
      have hbk : s2.backup = s.backup := by have h := congrArg Store.backup hfr.1; exact h
      have hca : s2.cache = s.cache := by have h := congrArg Store.cache hfr.1; exact h
      have hac : s2.actions = s.actions := by have h := congrArg Store.actions hfr.1; exact h
      have hmu : s2.mutations = s.mutations := by have h := congrArg Store.mutations hfr.1; exact h
      have hge : s2.getters = s.getters := by have h := congrArg Store.getters hfr.1; exact h
      have hne : s2.nested = s.nested := by have h := congrArg Store.nested hfr.1; exact h
      have hre : s2.recurse = s.recurse := by have h := congrArg Store.recurse hfr.1; exact h
      have hsb : s2.subs = s.subs := by have h := congrArg Store.subs hfr.1; exact h
      have hprev : smPrevious s2.stack ≠ St.idle := by
        rw [hsk2]
        cases hck : s.stack with
        | nil => exact absurd hck hsne
        | cons h0 t =>
          show h0 ≠ St.idle
          rw [hck] at hhd
          simpa using hhd
      rw [if_neg hprev]
      have hnofire : (smPopRaw s2.stack).2 = false := by
        rw [hsk2, smPopRaw_cons _ _ hsne]
        simp only [beq_eq_false_iff_ne, ne_eq]
        intro hc
        rw [hc] at hlen
        omega
      constructor
      · apply Store.ext
        · rw [popStatus_recurse, hre]
        · rw [popStatus_state, hstt]
        · rfl
        · rw [popStatus_backup, hbk]
        · rw [popStatus_nested, hne]
        · rw [popStatus_mutations, hmu]
        · rw [popStatus_actions, hac]
        · rw [popStatus_getters, hge]
        · rw [popStatus_cache, hca]
        · rw [popStatus_stack, hsk2, smPopRaw_cons _ _ hsne]
        · rfl
        · rw [popStatus_subs, hsb]
      · intro _
        rw [popStatus_log, hnofire]
        simp only [Bool.false_eq_true, if_false]
        exact hlog2

theorem runActs_frame (fuel : Nat) :
    ∀ acts (s : Store) out,
      2 ≤ s.stack.length → s.stack.headD St.idle ≠ St.idle →
      runActs fuel s acts = some out →
      out.1 = { s with stage := out.1.stage, log := out.1.log } ∧
      (out.2 = Except.ok () → out.1.log = s.log) := by
  induction fuel with
  | zero =>
    exact runSteps_frame noDispatch (fun s n p out _ _ hd => by cases hd)
  | succ f ih =>
    exact runSteps_frame _ (fun s n p out hlen hhd hd =>
      dispatchWith_frame (runActs f) ih s n p out hlen hhd hd)

/-- C1: nested dispatch atomicity.  For an outermost dispatch of any
action — whatever it does with the context's apply, dispatch or commit
— no flush of stage into state and no commit/dispatch notification
occurs until the outermost dispatch completes.  Nested invocations
through the apply proxy only accumulate writes in the stage: the inner
dispatch sees status.previous ≠ IDLE and skips its flush/publish;
ctx.commit and ctx.dispatch, being unbound references, fail without
touching the store at all.  On success the staged changes are
reconciled into state exactly once, from the final stage at the end of
the outer operation, and precisely one commit/dispatch notification
pair (followed by the idle pop) is published for the outer call; on
failure the state is left completely unchanged. -/
theorem nested_dispatch_atomicity (fuel : Nat) (s : Store) (name : String)
    (p : List JSVal) (bodyFn : List JSVal → List Act) (out : Store × Except JSVal Unit)
    (hstk : s.stack = [St.idle])
    (ha : aGet s.actions name = some bodyFn)
    (hd : dispatch fuel s name p = some out) :
    (out.2 = Except.ok () →
      out.1.log = s.log ++ [Event.commit, Event.dispatch name, Event.idle] ∧
      out.1.state = flushState s.recurse s.nested out.1.stage s.state) ∧
    (∀ e, out.2 = Except.error e → out.1.state = s.state) := by
  have hs1len : 2 ≤ (pushStatus s St.dispatch).stack.length := by
    simp [pushStatus, smPush, hstk]
  have hs1hd : (pushStatus s St.dispatch).stack.headD St.idle ≠ St.idle := by
    simp [pushStatus, smPush]
  simp only [dispatch, dispatchWith, ha] at hd
  split at hd
  · cases hd
  · rename_i s2 e heq
    obtain rfl := Option.some.inj hd
    have hfr := runActs_frame fuel (bodyFn p) (pushStatus s St.dispatch)
      (s2, Except.error e) hs1len hs1hd heq
    refine ⟨fun hok => Except.noConfusion hok, fun e' he' => ?_⟩
    have hstt : s2.state = s.state := by have h := congrArg Store.state hfr.1; exact h
    rw [popStatus_state, rollback_state, hstt]
  · rename_i s2 u heq
    obtain rfl := Option.some.inj hd
    have hfr := runActs_frame fuel (bodyFn p) (pushStatus s St.dispatch)
      (s2, Except.ok u) hs1len hs1hd heq
    have hsk2 : s2.stack = St.dispatch :: s.stack := by have h := congrArg Store.stack hfr.1; exact h
    have hlog2 : s2.log = s.log := hfr.2 rfl
    have hstt : s2.state = s.state := by have h := congrArg Store.state hfr.1; exact h
    have hne : s2.nested = s.nested := by have h := congrArg Store.nested hfr.1; exact h
    have hre : s2.recurse = s.recurse := by have h := congrArg Store.recurse hfr.1; exact h
    have hprev : smPrevious s2.stack = St.idle := by
      rw [hsk2, hstk]
      rfl
    refine ⟨fun _ => ?_, fun e' he' => Except.noConfusion he'⟩
    rw [if_pos hprev]
    constructor
    · rw [flush_true_deep s2 St.dispatch [St.idle] (by rw [hsk2, hstk]) (by simp)]
      rw [popStatus_cons _ St.dispatch [St.idle]
        (by show s2.stack = St.dispatch :: [St.idle]; rw [hsk2, hstk]) (by simp)]
      simp only [List.length_singleton, beq_self_eq_true, if_true]
      simp [publish, hlog2]
    · have hstage : (popStatus (publish (flush true s2) (Event.dispatch name))).stage
          = s2.stage := by
        rw [popStatus_stage]
        show (flush true s2).stage = s2.stage
        exact flush_stage true s2
      rw [hstage, popStatus_state]
      show (flush true s2).state = flushState s.recurse s.nested s2.stage s.state
      rw [flush_state, hstt, hne, hre]

/-- Witness for C1: dispatching outer (which writes x := 3 and then
invokes inner through the apply proxy, inner writing y := 7) succeeds
with exactly one commit/dispatch notification pair followed by the
idle pop appended to the log. -/
theorem nested_dispatch_atomicity_witness :
    (dispatch 5 nestStore "outer" []).map (fun out => (out.1.log, exOk out.2)) =
      some (nestStore.log ++ [Event.commit, Event.dispatch "outer", Event.idle], true) := by
  cases hd : dispatch 5 nestStore "outer" [] with
  | none =>
    have hS : (dispatch 5 nestStore "outer" []).isSome = true := rfl
    rw [hd] at hS
    cases hS
  | some out =>
    have hok : out.2 = Except.ok () := by
      have hE : (dispatch 5 nestStore "outer" []).map (fun o => exOk o.2) = some true := rfl
      rw [hd] at hE
      simp only [Option.map] at hE
      cases h2 : out.2 with
      | ok u => rfl
      | error e =>
        rw [h2] at hE
        simp [exOk] at hE
    have h := (nested_dispatch_atomicity 5 nestStore "outer" [] outerBody out
      rfl rfl hd).1 hok
    show some (out.1.log, exOk out.2) =
      some (nestStore.log ++ [Event.commit, Event.dispatch "outer", Event.idle], true)
    rw [h.1, hok]
    rfl

end Auora
